import Mathlib

/- Verification of the string-table merge engine of update_strings_files.py.

   The embedding models:
   - the regular expressions of lines 117-120 as decidable checks on a line,
   - file reading (read_from_file, lines 150-194) as a fuel-indexed loop over
     the list of readline chunks of the text,
   - serialization (LocalizedString.__unicode__, save_to_file) as string
     concatenation,
   - the merge engine (merge_with, lines 209-330) as a pure function
     returning the merged table together with the classification lists and
     the report flags, and separately as a store-passing function that makes
     the Python object identities (copy and attribute assignment) explicit,
   - the top-level merge (lines 333-341) over optional file contents, with
     the Python exception flow (bare except, unbound local) made explicit. -/

namespace UpdateStrings

/-! ### Line discipline: Python readline chunks -/

/-- Cut a text after every newline character, the way repeated calls to
Python's file.readline deliver it; a final fragment with no newline is a
chunk of its own, and the empty text yields no chunk. -/
def splitLinesAux : List Char → List Char → List String
  | [], acc => if acc.isEmpty then [] else [String.mk acc.reverse]
  | c :: cs, acc =>
    if c = '\n' then String.mk (acc.reverse ++ ['\n']) :: splitLinesAux cs []
    else splitLinesAux cs (c :: acc)

def splitLines (s : String) : List String := splitLinesAux s.data []

/-- One call of f.readline(): the next chunk, or the empty string at end of
file. -/
def readline : List String → String × List String
  | [] => ("", [])
  | l :: ls => (l, ls)

/-! ### The regular expressions of lines 117-120

Python's re.match anchors at the start, and a final dollar also matches just
before one trailing newline; the dot never matches a newline.  Each matcher
therefore works on the line with one trailing newline removed. -/

/-- Remove one trailing newline, the territory of a final dollar anchor. -/
def chompData (cs : List Char) : List Char :=
  match cs.getLast? with
  | some c => if c = '\n' then cs.dropLast else cs
  | none => cs

/-- Matcher for re_comment_single, the pattern slash-star dot-star star-slash
anchored on both sides: the chomped line decomposes as an opening
slash-star, anything, and a closing star-slash. -/
def re_comment_single (line : String) : Bool :=
  let s := chompData line.data
  ['/', '*'].isPrefixOf s && ['/', '*'].isPrefixOf s.reverse && decide (4 ≤ s.length)

/-- Matcher for re_comment_end, the pattern dot-star star-slash anchored on
both sides: the chomped line ends with star-slash. -/
def re_comment_end (line : String) : Bool :=
  ['/', '*'].isPrefixOf (chompData line.data).reverse

/-- The five-character separator quote space equals space quote standing
between the two capture groups of re_translation. -/
def sepChars : List Char := ['"', ' ', '=', ' ', '"']

/-- Whether cutting the core of a key-value line at position i yields a
valid pair of capture groups: a nonempty key, the separator, and a nonempty
value, neither group containing a newline (the dot of the pattern never
matches a newline). -/
def goodSplit (cs : List Char) (i : Nat) : Bool :=
  decide (1 ≤ i) && sepChars.isPrefixOf (cs.drop i) &&
    !(cs.drop (i + 5)).isEmpty && !(cs.take i).contains '\n' &&
    !(cs.drop (i + 5)).contains '\n'

/-- The split chosen by the greedy first group of re_translation: the
rightmost valid cut. -/
def bestSplit (cs : List Char) : Option Nat :=
  (List.range (cs.length + 1)).reverse.find? (fun i => goodSplit cs i)

/-- Matcher and group extractor for re_translation, the anchored pattern
quote group-one quote space equals space quote group-two quote semicolon:
returns the key and value captures when the line matches. -/
def re_translation (line : String) : Option (String × String) :=
  let s := chompData line.data
  if ['"'].isPrefixOf s && [';', '"'].isPrefixOf s.reverse then
    let core := (s.drop 1).dropLast.dropLast
    match bestSplit core with
    | some i => some (String.mk (core.take i), String.mk (core.drop (i + 5)))
    | none => none
  else none

/-! ### Entry model (class LocalizedString, lines 132-138) -/

structure LocalizedString where
  comments : List String
  translation : String
  key : String
  value : String
deriving DecidableEq, Inhabited

/-- The constructor of LocalizedString: store the comment lines and the raw
key-value line, and derive key and value from the re_translation groups
(the parser only constructs entries whose line matched). -/
def LocalizedString.ofParts (comments : List String) (tr : String) : LocalizedString :=
  match re_translation tr with
  | some kv => ⟨comments, tr, kv.1, kv.2⟩
  | none => ⟨comments, tr, "", ""⟩

/-- LocalizedString.__unicode__ (lines 137-138): the joined comment lines,
the raw key-value line, and one extra newline. -/
def LocalizedString.unicode (s : LocalizedString) : String :=
  String.join s.comments ++ s.translation ++ "\n"

/-- Python str.startswith. -/
def py_startswith (s pre : String) : Bool := pre.data.isPrefixOf s.data

/-- Python substring membership, the test "s.find(sub) != -1". -/
def infixCheck (pat : List Char) : List Char → Bool
  | [] => pat.isPrefixOf []
  | c :: cs => pat.isPrefixOf (c :: cs) || infixCheck pat cs

def str_contains (s sub : String) : Bool := infixCheck sub.data s.data

/-! ### Table model (class LocalizedFile, lines 141-148) -/

/-- The strings_d dictionary: association list with unique keys,
insertion-ordered, last write wins. -/
abbrev Dict := List (String × LocalizedString)

def dmem (d : Dict) (k : String) : Bool := d.any (fun p => p.1 == k)

def dget (d : Dict) (k : String) : Option LocalizedString :=
  (d.find? (fun p => p.1 == k)).map (fun p => p.2)

def dset (d : Dict) (k : String) (v : LocalizedString) : Dict :=
  if dmem d k then d.map (fun p => if p.1 == k then (k, v) else p) else d ++ [(k, v)]

structure LocalizedFile where
  strings : List LocalizedString
  strings_d : Dict
deriving DecidableEq, Inhabited

def LocalizedFile.empty : LocalizedFile := ⟨[], []⟩

/-- The paired statements self.strings.append(string) and
self.strings_d[string.key] = string, as performed by both the reader
(lines 191-192) and the merge loop (lines 246-247). -/
def LocalizedFile.push (f : LocalizedFile) (s : LocalizedString) : LocalizedFile :=
  ⟨f.strings ++ [s], dset f.strings_d s.key s⟩

def pushAll (f : LocalizedFile) (es : List LocalizedString) : LocalizedFile :=
  es.foldl LocalizedFile.push f

/-- A table built only by pushing its entries in order onto the empty table. -/
def fileOf (es : List LocalizedString) : LocalizedFile := pushAll LocalizedFile.empty es

/-! ### Parser (read_from_file, lines 150-194) -/

/-- The inner comment scan (lines 170-173): while the current line is
nonempty and does not match re_comment_end, read the next line and append
it to the comment list; the read that hits end of file appends the empty
string and the loop then stops.  Returns the comment list and the unread
rest. -/
def commentScan (line : String) (ls : List String) (comments : List String) :
    List String × List String :=
  if line ≠ "" ∧ re_comment_end line = false then
    match ls with
    | [] => (comments ++ [""], [])
    | l :: rest => commentScan l rest (comments ++ [l])
  else (comments, ls)

/-- The blank-line skip (lines 186-188): while the line is exactly one
newline, read the next line; the read that hits end of file yields the
empty string on which the loop stops. -/
def skipScan (line : String) (ls : List String) : String × List String :=
  if line = "\n" then
    match ls with
    | [] => ("", [])
    | l :: rest => skipScan l rest
  else (line, ls)

/-- The outcome of one iteration of the outer while loop of read_from_file:
a parsed entry together with the next lookahead line and unread rest, a
silent break, or the raised Exception('Invalid file.'). -/
inductive StepRes where
  | stop
  | bad
  | entry (e : LocalizedString) (line : String) (ls : List String)
deriving DecidableEq, Inhabited

/-- One iteration of the outer loop (lines 167-192), for a nonempty current
line: collect the comment block, read the candidate key-value line, and
either build the entry and skip blank lines, or break silently when the
comment capture ends empty or no entry was found yet, or fail. -/
def parseStep (line : String) (ls : List String) (found_one : Bool) : StepRes :=
  let scan := if re_comment_single line then ([line], ls) else commentScan line ls [line]
  let rl := readline scan.2
  if rl.1 ≠ "" ∧ (re_translation rl.1).isSome then
    let rl2 := readline rl.2
    let nxt := skipScan rl2.1 rl2.2
    .entry (LocalizedString.ofParts scan.1 rl.1) nxt.1 nxt.2
  else
    if scan.1.getLastD "" = "" ∨ found_one = false then .stop else .bad

/-- The outer while loop of read_from_file, fuel-indexed (none means the
fuel ran out, which read_from_string's choice of fuel never lets happen):
stop at end of file with the entries pushed so far, otherwise run one
parseStep. -/
def parseLoop : Nat → String → List String → Bool → LocalizedFile →
    Option (Except Unit LocalizedFile)
  | 0, _, _, _, _ => none
  | fuel + 1, line, ls, found_one, acc =>
    if line = "" then some (.ok acc)
    else
      match parseStep line ls found_one with
      | .stop => some (.ok acc)
      | .bad => some (.error ())
      | .entry e line1 ls1 => parseLoop fuel line1 ls1 true (acc.push e)

/-- read_from_file on the text of an existing file: split into readline
chunks and run the loop with fuel that a later lemma shows is always
sufficient. -/
def read_from_string (text : String) : Option (Except Unit LocalizedFile) :=
  let ls := splitLines text
  let rl := readline ls
  parseLoop (ls.length + 1) rl.1 rl.2 false LocalizedFile.empty

/-- The content written by save_to_file (lines 196-207): the concatenation
of string.__unicode__() over the entries in order. -/
def save_content (f : LocalizedFile) : String :=
  String.join (f.strings.map LocalizedString.unicode)

/-- The exceptions that escape read_from_file in the missing-file and
malformed-file cases.  When open fails, the handler of lines 154-157 calls
f.close() on the never-bound local f, so a NameError escapes before
exit(-1) is reached; a malformed file raises Exception('Invalid file.'). -/
inductive PyError where
  | unboundName
  | invalidFile
deriving DecidableEq

deriving instance DecidableEq for Except

/-- Loading a table from an optional file content: a missing file makes
read_from_file raise through its broken handler, an invalid file raises
the parse exception. -/
def read_from_file (contents : Option String) : Except PyError LocalizedFile :=
  match contents with
  | none => .error .unboundName
  | some text =>
    match read_from_string text with
    | some (.ok f) => .ok f
    | some (.error _) => .error .invalidFile
    | none => .error .invalidFile

/-! ### Merge engine (merge_with, lines 209-330) -/

/-- The per-entry summary numbers printed at lines 312-327.  The two
percentages are computed through a division that is modelled as partial, so
that the guard "if total != 0" of the source is visible: the summary is an
Option that a theorem shows is always some. -/
structure MergeSummary where
  translated : Nat
  true_translated : Int
  total : Nat
  left : Int
  percentage : Nat
  percentage_temporary : Nat
deriving DecidableEq

/-- Division as Python performs it on the counters, undefined on a zero
divisor. -/
def py_div (a b : Nat) : Option Nat := if b = 0 then none else some (a / b)

/-- Everything merge_with produces or observably emits: the merged table,
the four classification lists and the reported removed entries, the last
value of same_comment, the is_dev_language test of line 269, the two global
flags of lines 284 and 308, and the summary numbers. -/
structure MergeResult where
  merged : LocalizedFile
  translated_strings : List LocalizedString
  added_strings : List LocalizedString
  default_strings : List LocalizedString
  temporary_strings : List LocalizedString
  removed_report : List LocalizedString
  same_comment : Bool
  is_dev_language : Bool
  should_warn_temp : Bool
  should_error_default : Bool
  summary : Option MergeSummary
deriving DecidableEq

/-- The main loop of merge_with (lines 225-247), one step per entry of the
new table: a key absent from the old index is appended to merged as-is and
recorded as added; a key present in the old index yields a copy of the old
entry whose comments are overwritten with the new comments, the old entry
being recorded as translated when its value differs from the new value and
its own key differs from its own value, and as default otherwise.
Arguments after the entry list: merged so far, translated_strings,
added_strings, default_strings, same_comment. -/
def merge_body (old : LocalizedFile) :
    List LocalizedString → LocalizedFile → List LocalizedString → List LocalizedString →
    List LocalizedString → Bool →
    LocalizedFile × List LocalizedString × List LocalizedString × List LocalizedString × Bool
  | [], merged, tr, ad, df, same => (merged, tr, ad, df, same)
  | string :: rest, merged, tr, ad, df, same =>
    match dget old.strings_d string.key with
    | none => merge_body old rest (merged.push string) tr (ad ++ [string]) df same
    | some old_key =>
      let new_string0 := old_key
      let same1 := new_string0.comments == string.comments
      let new_string := { new_string0 with comments := string.comments }
      if old_key.value ≠ string.value then
        if old_key.key ≠ old_key.value then
          merge_body old rest (merged.push new_string) (tr ++ [old_key]) ad df same1
        else
          merge_body old rest (merged.push new_string) tr ad (df ++ [old_key]) same1
      else
        merge_body old rest (merged.push new_string) tr ad (df ++ [old_key]) same1

/-- merge_with (lines 209-330), as the function from the old table (self),
the new table, the destination file name, the development language folder
name, and the temporary tag, to everything it produces. -/
def merge_with (self new : LocalizedFile)
    (final_filename development_language_folder TEMP_TAG : String) : MergeResult :=
  let r := merge_body self new.strings LocalizedFile.empty [] [] [] false
  let merged := r.1
  let translated_strings := r.2.1
  let added_strings := r.2.2.1
  let default_strings := r.2.2.2.1
  let same_comment := r.2.2.2.2
  let removed_report := self.strings.filter (fun oldString =>
    !(added_strings.any (fun s => oldString.key == s.key) ||
      default_strings.any (fun s => oldString.key == s.key) ||
      translated_strings.any (fun s => oldString.key == s.key)))
  let is_dev_language := str_contains final_filename development_language_folder ||
    str_contains final_filename "Base.lproj"
  let temporary_strings := translated_strings.filter
    (fun s => py_startswith s.value TEMP_TAG)
  let translated := translated_strings.length
  let true_translated : Int := (translated : Int) - (temporary_strings.length : Int)
  let total := new.strings.length
  let left : Int := (total : Int) - true_translated
  let temporary := temporary_strings.length
  let temporary_total := new.strings.length
  let summary : Option MergeSummary :=
    (if total ≠ 0 then py_div (translated * 100) total else some 0).bind (fun percentage =>
      (if temporary_total ≠ 0 then py_div (temporary * 100) temporary_total
        else some 0).bind (fun percentage_temporary =>
        some ⟨translated, true_translated, total, left, percentage, percentage_temporary⟩))
  ⟨merged, translated_strings, added_strings, default_strings, temporary_strings,
    removed_report, same_comment, is_dev_language,
    !temporary_strings.isEmpty, !default_strings.isEmpty && !is_dev_language, summary⟩

/-! ### Top-level merge (lines 333-341)

The function merge wraps the load of the old table in a bare
try-except-pass.  When that load raises (missing or malformed old file),
the local name old stays unbound, and the later call old.merge_with raises
an unhandled NameError instead of merging against an empty table. -/

def merge_files (old_contents new_contents : Option String)
    (merged_fname development_language_folder TEMP_TAG : String) :
    Except PyError LocalizedFile :=
  match read_from_file old_contents with
  | .ok old =>
    match read_from_file new_contents with
    | .error e => .error e
    | .ok new =>
      .ok (merge_with old new merged_fname development_language_folder TEMP_TAG).merged
  | .error _ =>
    match read_from_file new_contents with
    | .error e => .error e
    | .ok _ => .error .unboundName

/-! ### Store-passing model of the merge loop

The pure model above cannot express which Python objects are mutated, so
the loop of lines 225-247 is modelled once more with entries held in a
store and tables holding references: copy(old_key) allocates a fresh cell
holding the same data, and the assignment new_string.comments = ... writes
that fresh cell.  The classification lists receive the reference of the
original old entry, and merged receives the new entry's reference in the
added case and the fresh copy's reference otherwise, exactly as the Python
names alias. -/

abbrev Store := List LocalizedString

/-- Dereference: the entry data currently held at a reference. -/
def sget (st : Store) (r : Nat) : LocalizedString := st.getD r default

def dgetN (d : List (String × Nat)) (k : String) : Option Nat :=
  (d.find? (fun p => p.1 == k)).map (fun p => p.2)

def dsetN (d : List (String × Nat)) (k : String) (v : Nat) : List (String × Nat) :=
  if d.any (fun p => p.1 == k) then d.map (fun p => if p.1 == k then (k, v) else p)
  else d ++ [(k, v)]

/-- A table whose entries are references into a store. -/
structure RefFile where
  strings : List Nat
  strings_d : List (String × Nat)
deriving DecidableEq, Inhabited

/-- copy(old_key): allocate a fresh cell holding the same data, return the
extended store and the fresh reference. -/
def copyAlloc (st : Store) (r : Nat) : Store × Nat := (st ++ [sget st r], st.length)

/-- new_string.comments = string.comments: overwrite one field of the cell
at reference r. -/
def setComments (st : Store) (r : Nat) (cs : List String) : Store :=
  st.set r { sget st r with comments := cs }

/-- The loop of lines 225-247 over the store.  Arguments after the entry
reference list: store, merged.strings, merged.strings_d,
translated_strings, added_strings, default_strings. -/
def merge_body_refs (oldD : List (String × Nat)) :
    List Nat → Store → List Nat → List (String × Nat) → List Nat → List Nat → List Nat →
    Store × List Nat × List (String × Nat) × List Nat × List Nat × List Nat
  | [], st, mS, mD, tr, ad, df => (st, mS, mD, tr, ad, df)
  | r :: rest, st, mS, mD, tr, ad, df =>
    let s := sget st r
    match dgetN oldD s.key with
    | none => merge_body_refs oldD rest st (mS ++ [r]) (dsetN mD s.key r) tr (ad ++ [r]) df
    | some ro =>
      let al := copyAlloc st ro
      let rn := al.2
      let st2 := setComments al.1 rn s.comments
      let o := sget st ro
      if o.value ≠ s.value then
        if o.key ≠ o.value then
          merge_body_refs oldD rest st2 (mS ++ [rn]) (dsetN mD (sget st2 rn).key rn)
            (tr ++ [ro]) ad df
        else
          merge_body_refs oldD rest st2 (mS ++ [rn]) (dsetN mD (sget st2 rn).key rn)
            tr ad (df ++ [ro])
      else
        merge_body_refs oldD rest st2 (mS ++ [rn]) (dsetN mD (sget st2 rn).key rn)
          tr ad (df ++ [ro])

/-- merge_with over the store model: run the loop of the old table's
method on the new table's entry references. -/
def merge_with_refs (st : Store) (old new : RefFile) :
    Store × List Nat × List (String × Nat) × List Nat × List Nat × List Nat :=
  merge_body_refs old.strings_d new.strings st [] [] [] [] []

/-! ### Specification-side descriptions used by the theorems -/

/-- Index coherence of a table, the invariant read_from_file and the merge
loop maintain: every dictionary slot holds an entry bearing the slot's key
and present in the entry list, and every listed entry's key is indexed. -/
def WFfile (f : LocalizedFile) : Prop :=
  (∀ p ∈ f.strings_d, p.2.key = p.1 ∧ p.2 ∈ f.strings) ∧
  (∀ e ∈ f.strings, dmem f.strings_d e.key = true)

instance (f : LocalizedFile) : Decidable (WFfile f) := by
  unfold WFfile
  infer_instance

/-- What one iteration of the merge loop contributes to merged: the new
entry itself when its key is absent from the old index, else the old entry
with its comments replaced by the new entry's comments. -/
def mergeStep (old : LocalizedFile) (n : LocalizedString) : LocalizedString :=
  match dget old.strings_d n.key with
  | none => n
  | some o => { o with comments := n.comments }

/-- The old entry the loop reads for a new entry's key. -/
def oldOf (old : LocalizedFile) (n : LocalizedString) : LocalizedString :=
  (dget old.strings_d n.key).getD default

/-- Whether the loop classifies the iteration for n under
translated_strings: the key is present in the old index, the old value
differs from the new value, and the old entry's key differs from its own
value. -/
def isTranslatedCase (old : LocalizedFile) (n : LocalizedString) : Bool :=
  match dget old.strings_d n.key with
  | none => false
  | some o => decide (o.value ≠ n.value) && decide (o.key ≠ o.value)

/-- Whether the loop classifies the iteration for n under default_strings:
the key is present in the old index and the translated test fails. -/
def isDefaultCase (old : LocalizedFile) (n : LocalizedString) : Bool :=
  match dget old.strings_d n.key with
  | none => false
  | some o => !(decide (o.value ≠ n.value) && decide (o.key ≠ o.value))

/-- The value same_comment holds after the loop: the last comparison made
on an entry whose key was found in the old index, or the start value. -/
def finalSame (old : LocalizedFile) (news : List LocalizedString) (s : Bool) : Bool :=
  news.foldl (fun acc n =>
    match dget old.strings_d n.key with
    | none => acc
    | some o => o.comments == n.comments) s

/-! Relational description of the grammar the parser recognises, used to
state what read_from_file accepts and when it fails. -/

/-- All readline chunks are nonempty, which holds of splitLines output. -/
def NEchunks (ls : List String) : Prop := ∀ l ∈ ls, l ≠ ""

/-- The comment capture of one record: a single-line comment captures just
itself; a first line already ending in star-slash captures just itself; an
open block captures lines up to and including the first line ending in
star-slash, or everything plus a final empty read when no such line
remains before end of file. -/
def CaptureRel (line : String) (ls : List String) (cs : List String)
    (rest : List String) : Prop :=
  (re_comment_single line = true ∧ cs = [line] ∧ rest = ls) ∨
  (re_comment_single line = false ∧ re_comment_end line = true ∧ cs = [line] ∧ rest = ls) ∨
  (re_comment_single line = false ∧ re_comment_end line = false ∧
    ((∃ body lk rest1, ls = body ++ lk :: rest1 ∧ (∀ b ∈ body, re_comment_end b = false) ∧
        re_comment_end lk = true ∧ cs = line :: (body ++ [lk]) ∧ rest = rest1) ∨
     ((∀ b ∈ ls, re_comment_end b = false) ∧ cs = (line :: ls) ++ [""] ∧ rest = [])))

/-- The blank-line separator after a record: a run of newline-only chunks,
then either the next lookahead line (not itself a lone newline) or end of
file. -/
def BlankSkipRel (ls : List String) (line' : String) (rest : List String) : Prop :=
  ∃ blanks, (∀ b ∈ blanks, b = "\n") ∧
    ((ls = blanks ++ line' :: rest ∧ line' ≠ "\n") ∨
     (ls = blanks ∧ line' = "" ∧ rest = []))

/-- One complete record: a comment capture followed by a nonempty line
matching re_translation, then the blank separator; the produced entry holds
the captured comments and the raw key-value line. -/
def GoodRecord (line : String) (ls : List String) (e : LocalizedString)
    (line' : String) (ls' : List String) : Prop :=
  line ≠ "" ∧ ∃ cs ls1 t ls2, CaptureRel line ls cs ls1 ∧ readline ls1 = (t, ls2) ∧
    t ≠ "" ∧ (re_translation t).isSome ∧ BlankSkipRel ls2 line' ls' ∧
    e = LocalizedString.ofParts cs t

/-- A malformed tail: a comment capture whose last captured line is not the
empty end-of-file read, followed by no valid key-value line. -/
def BadTail (line : String) (ls : List String) : Prop :=
  line ≠ "" ∧ ∃ cs ls1, CaptureRel line ls cs ls1 ∧ cs.getLastD "" ≠ "" ∧
    ((readline ls1).1 = "" ∨ re_translation (readline ls1).1 = none)

/-- A tail whose comment capture ended on the empty end-of-file read,
followed by no valid key-value line: always a silent stop. -/
def WeakTail (line : String) (ls : List String) : Prop :=
  line ≠ "" ∧ ∃ cs ls1, CaptureRel line ls cs ls1 ∧ cs.getLastD "" = "" ∧
    ((readline ls1).1 = "" ∨ re_translation (readline ls1).1 = none)

/-- A run of complete records from one parse state to another. -/
inductive Records : String → List String → List LocalizedString → String → List String → Prop
  | nil : ∀ line ls, Records line ls [] line ls
  | cons : ∀ line ls e line1 ls1 es line' ls', GoodRecord line ls e line1 ls1 →
      Records line1 ls1 es line' ls' → Records line ls (e :: es) line' ls'

/-! Shape of an entry as the serializer writes it and the parser reads it
back, used for the round-trip theorem. -/

/-- A full line: nonempty, ending in a newline that occurs nowhere else in
it. -/
def properLineB (l : String) : Bool :=
  l.data.getLast? == some '\n' && !(l.data.dropLast.contains '\n')

/-- The comment groupings the parser can produce: a lone line matching the
single-line or the end pattern, or an open first line, a body free of end
matches, and a closing end match. -/
def commentShapeB (cs : List String) : Bool :=
  match cs with
  | [] => false
  | [l] => re_comment_single l || re_comment_end l
  | l0 :: rest =>
    !re_comment_single l0 && !re_comment_end l0 &&
    rest.dropLast.all (fun b => !re_comment_end b) &&
    re_comment_end (rest.getLastD "")

/-- An entry in serialized normal shape: well-grouped full comment lines, a
full key-value line matching re_translation, and key and value fields
derived from that line. -/
def entryShapeB (e : LocalizedString) : Bool :=
  commentShapeB e.comments && e.comments.all properLineB && properLineB e.translation &&
  (re_translation e.translation).isSome &&
  (e == LocalizedString.ofParts e.comments e.translation)

/-- Entries after the first must not open with a lone-newline comment line,
which the blank skip before them would swallow. -/
def chainB (es : List LocalizedString) : Bool :=
  (es.drop 1).all (fun e => e.comments.headD "" ≠ "\n")

/-! ### Concrete sample data for the counterexamples and witnesses -/

/-- A key-value line as extractLocStrings writes it. -/
def kvLine (k v : String) : String := "\"" ++ k ++ "\" = \"" ++ v ++ "\";\n"

/-- An entry with one single-line comment. -/
def sample_entry (c k v : String) : LocalizedString :=
  LocalizedString.ofParts [c] (kvLine k v)

def eHelloBonjour : LocalizedString := sample_entry "/* a */\n" "HELLO" "Bonjour"
def eHelloHello : LocalizedString := sample_entry "/* b */\n" "HELLO" "Hello"
def eByeGoodbye : LocalizedString := sample_entry "/* c */\n" "BYE" "Goodbye"
def eHelloTagged : LocalizedString := sample_entry "/* a */\n" "HELLO" "*Bonjour"
def eOldAncien : LocalizedString := sample_entry "/* d */\n" "OLD" "Ancien"

def fnFr : String := "x/fr.lproj/Localizable.strings"
def fnEn : String := "x/en.lproj/Localizable.strings"
def devEn : String := "en.lproj"

def fOldB : LocalizedFile := fileOf [eHelloBonjour]
def fNewB : LocalizedFile := fileOf [eHelloHello, eByeGoodbye]
def fOldTag : LocalizedFile := fileOf [eHelloTagged]
def fNewH : LocalizedFile := fileOf [eHelloHello]
def fOldC : LocalizedFile := fileOf [eHelloBonjour, eOldAncien]

/-! ## Infrastructure lemmas -/

theorem dmem_false_iff (d : Dict) (k : String) :
    dmem d k = false ↔ dget d k = none := by
  induction d with
  | nil => simp [dmem, dget]
  | cons p rest ih =>
    simp only [dmem, dget, List.any_cons, List.find?_cons] at ih ⊢
    cases h : (p.1 == k) with
    | true => simp [h]
    | false => simp only [h, Bool.false_or, if_false]; exact ih

theorem dget_mem {d : Dict} {k : String} {e : LocalizedString}
    (h : dget d k = some e) : (k, e) ∈ d := by
  unfold dget at h
  rcases Option.map_eq_some'.1 h with ⟨p, hp, rfl⟩
  have hmem := List.mem_of_find?_eq_some hp
  have hk := List.find?_some hp
  have : p.1 = k := by simpa using hk
  rcases p with ⟨k', v⟩
  subst this
  exact hmem

theorem wf_dget {f : LocalizedFile} (hw : WFfile f) {k : String} {e : LocalizedString}
    (h : dget f.strings_d k = some e) : e.key = k ∧ e ∈ f.strings :=
  hw.1 (k, e) (dget_mem h)

theorem dmem_true_of_dget {d : Dict} {k : String} {e : LocalizedString}
    (h : dget d k = some e) : dmem d k = true := by
  by_contra hc
  have : dmem d k = false := by revert hc; cases dmem d k <;> simp
  rw [(dmem_false_iff d k).1 this] at h
  cases h

theorem dget_of_dmem {d : Dict} {k : String} (h : dmem d k = true) :
    ∃ e, dget d k = some e := by
  cases hg : dget d k with
  | none => rw [(dmem_false_iff d k).2 hg] at h; cases h
  | some e => exact ⟨e, rfl⟩

theorem oldOf_of_dget {old : LocalizedFile} {n : LocalizedString} {o : LocalizedString}
    (hg : dget old.strings_d n.key = some o) : oldOf old n = o := by
  simp [oldOf, hg]

theorem pushAll_nil (f : LocalizedFile) : pushAll f [] = f := rfl

theorem pushAll_cons (f : LocalizedFile) (e : LocalizedString) (es : List LocalizedString) :
    pushAll f (e :: es) = pushAll (f.push e) es := rfl

theorem pushAll_strings (es : List LocalizedString) :
    ∀ f : LocalizedFile, (pushAll f es).strings = f.strings ++ es := by
  induction es with
  | nil => intro f; simp [pushAll_nil]
  | cons e rest ih =>
    intro f
    rw [pushAll_cons, ih]
    simp [LocalizedFile.push]

/-- The merge loop, characterised: merged collects one mergeStep per new
entry in order, added collects the new entries missing from the old index,
translated and default collect the indexed old entries by their test. -/
theorem merge_body_eq (old : LocalizedFile) (news : List LocalizedString) :
    ∀ (m : LocalizedFile) (tr ad df : List LocalizedString) (s : Bool),
    merge_body old news m tr ad df s =
      (pushAll m (news.map (mergeStep old)),
       tr ++ (news.filter (fun n => isTranslatedCase old n)).map (oldOf old),
       ad ++ news.filter (fun n => !(dmem old.strings_d n.key)),
       df ++ (news.filter (fun n => isDefaultCase old n)).map (oldOf old),
       finalSame old news s) := by
  induction news with
  | nil => intro m tr ad df s; simp [merge_body, pushAll_nil, finalSame]
  | cons n rest ih =>
    intro m tr ad df s
    cases hg : dget old.strings_d n.key with
    | none =>
      have hdm : dmem old.strings_d n.key = false := (dmem_false_iff _ _).2 hg
      have hT : isTranslatedCase old n = false := by simp [isTranslatedCase, hg]
      have hD : isDefaultCase old n = false := by simp [isDefaultCase, hg]
      have hM : mergeStep old n = n := by simp [mergeStep, hg]
      have hF : finalSame old (n :: rest) s = finalSame old rest s := by
        simp [finalSame, hg]
      simp only [merge_body, hg, ih, List.map_cons, List.filter_cons, hT, hD, hM, hdm, hF,
        pushAll_cons]
      simp [List.append_assoc]
    | some o =>
      have hdm : dmem old.strings_d n.key = true := dmem_true_of_dget hg
      have hO : oldOf old n = o := by simp [oldOf, hg]
      have hM : mergeStep old n = { o with comments := n.comments } := by
        simp [mergeStep, hg]
      have hF : finalSame old (n :: rest) s = finalSame old rest (o.comments == n.comments) := by
        simp [finalSame, hg]
      by_cases h1 : o.value ≠ n.value
      · by_cases h2 : o.key ≠ o.value
        · have hT : isTranslatedCase old n = true := by
            simp [isTranslatedCase, hg, h1, h2]
          have hD : isDefaultCase old n = false := by
            simp [isDefaultCase, hg, h1, h2]
          simp only [merge_body, hg]
          rw [if_pos h1, if_pos h2, ih]
          simp only [List.map_cons, List.filter_cons, hT, hD, hM, hO, hdm, hF,
            pushAll_cons, Bool.not_true, if_true, if_false]
          simp [List.append_assoc]
        · have hT : isTranslatedCase old n = false := by
            simp [isTranslatedCase, hg, h2]
          have hD : isDefaultCase old n = true := by
            simp [isDefaultCase, hg, h2]
          simp only [merge_body, hg]
          rw [if_pos h1, if_neg h2, ih]
          simp only [List.map_cons, List.filter_cons, hT, hD, hM, hO, hdm, hF,
            pushAll_cons, Bool.not_true, if_true, if_false]
          simp [List.append_assoc]
      · have hT : isTranslatedCase old n = false := by
          simp [isTranslatedCase, hg, h1]
        have hD : isDefaultCase old n = true := by
          simp [isDefaultCase, hg, h1]
        simp only [merge_body, hg]
        rw [if_neg h1, ih]
        simp only [List.map_cons, List.filter_cons, hT, hD, hM, hO, hdm, hF,
          pushAll_cons, Bool.not_true, if_true, if_false]
        simp [List.append_assoc]

/-- The merged table's entry list is one mergeStep per new entry, in the
new table's order. -/
theorem merged_strings (old new : LocalizedFile) (fn dev tag : String) :
    (merge_with old new fn dev tag).merged.strings = new.strings.map (mergeStep old) := by
  simp only [merge_with, merge_body_eq]
  rw [pushAll_strings]
  rfl

theorem added_eq (old new : LocalizedFile) (fn dev tag : String) :
    (merge_with old new fn dev tag).added_strings =
      new.strings.filter (fun n => !(dmem old.strings_d n.key)) := by
  simp only [merge_with, merge_body_eq]
  simp

theorem translated_eq (old new : LocalizedFile) (fn dev tag : String) :
    (merge_with old new fn dev tag).translated_strings =
      (new.strings.filter (fun n => isTranslatedCase old n)).map (oldOf old) := by
  simp only [merge_with, merge_body_eq]
  simp

theorem default_eq (old new : LocalizedFile) (fn dev tag : String) :
    (merge_with old new fn dev tag).default_strings =
      (new.strings.filter (fun n => isDefaultCase old n)).map (oldOf old) := by
  simp only [merge_with, merge_body_eq]
  simp

theorem temporary_eq (old new : LocalizedFile) (fn dev tag : String) :
    (merge_with old new fn dev tag).temporary_strings =
      (merge_with old new fn dev tag).translated_strings.filter
        (fun s => py_startswith s.value tag) := by
  simp only [merge_with, merge_body_eq]

theorem removed_eq (old new : LocalizedFile) (fn dev tag : String) :
    (merge_with old new fn dev tag).removed_report =
      old.strings.filter (fun oldString =>
        !((merge_with old new fn dev tag).added_strings.any (fun s => oldString.key == s.key) ||
          (merge_with old new fn dev tag).default_strings.any (fun s => oldString.key == s.key) ||
          (merge_with old new fn dev tag).translated_strings.any
            (fun s => oldString.key == s.key))) := by
  simp only [merge_with, merge_body_eq]

theorem mergeStep_key {old : LocalizedFile} (hw : WFfile old) (n : LocalizedString) :
    (mergeStep old n).key = n.key := by
  unfold mergeStep
  cases hg : dget old.strings_d n.key with
  | none => rfl
  | some o => exact (wf_dget hw hg).1

theorem isTranslatedCase_dget {old : LocalizedFile} {n : LocalizedString}
    (h : isTranslatedCase old n = true) :
    ∃ o, dget old.strings_d n.key = some o ∧ oldOf old n = o ∧
      o.value ≠ n.value ∧ o.key ≠ o.value := by
  unfold isTranslatedCase at h
  cases hg : dget old.strings_d n.key with
  | none => rw [hg] at h; cases h
  | some o =>
    rw [hg] at h
    simp only [Bool.and_eq_true, decide_eq_true_eq] at h
    exact ⟨o, rfl, by simp [oldOf, hg], h.1, h.2⟩

theorem isDefaultCase_dget {old : LocalizedFile} {n : LocalizedString}
    (h : isDefaultCase old n = true) :
    ∃ o, dget old.strings_d n.key = some o ∧ oldOf old n = o := by
  unfold isDefaultCase at h
  cases hg : dget old.strings_d n.key with
  | none => rw [hg] at h; cases h
  | some o => exact ⟨o, rfl, by simp [oldOf, hg]⟩

theorem not_both_cases (old : LocalizedFile) (n : LocalizedString) :
    ¬(isTranslatedCase old n = true ∧ isDefaultCase old n = true) := by
  rintro ⟨h1, h2⟩
  cases hg : dget old.strings_d n.key with
  | none => simp [isTranslatedCase, hg] at h1
  | some o =>
    simp only [isTranslatedCase, hg, Bool.and_eq_true, decide_eq_true_eq] at h1
    simp only [isDefaultCase, hg] at h2
    simp only [Bool.not_eq_true', Bool.and_eq_false_iff, decide_eq_false_iff_not,
      not_not] at h2
    rcases h2 with h2 | h2
    · exact h1.1 h2
    · exact h1.2 h2

/-! ## Claim C1 -/

/-- Claim C1 is false on the code: in Scenario B with tag star, the entry
BYE, whose key is absent from the old index, reaches merged with its value
Goodbye not prefixed by the tag, lands in added_strings, and
temporary_strings is empty. -/
theorem claim_C1_counterexample :
    (merge_with fOldB fNewB fnFr devEn "*").merged.strings.map LocalizedString.value
      = ["Bonjour", "Goodbye"] ∧
    ¬(∃ e ∈ (merge_with fOldB fNewB fnFr devEn "*").merged.strings,
      e.value = "*Goodbye") ∧
    (merge_with fOldB fNewB fnFr devEn "*").added_strings = [eByeGoodbye] ∧
    (merge_with fOldB fNewB fnFr devEn "*").temporary_strings = [] ∧
    (merge_with fOldB fNewB fnFr devEn "*").is_dev_language = false := by decide

/-- Claim C1 amended: an entry of new whose key is absent from the old
index is carried into merged unchanged, its value untouched by the tag, and
is classified added, for any development-language flag. -/
theorem claim_C1_amended (old new : LocalizedFile) (fn dev tag : String)
    (n : LocalizedString) (hn : n ∈ new.strings)
    (h : dmem old.strings_d n.key = false) :
    n ∈ (merge_with old new fn dev tag).merged.strings ∧
    n ∈ (merge_with old new fn dev tag).added_strings := by
  have hM : mergeStep old n = n := by
    simp [mergeStep, (dmem_false_iff _ _).1 h]
  constructor
  · rw [merged_strings]
    have h2 := List.mem_map_of_mem (mergeStep old) hn
    rwa [hM] at h2
  · rw [added_eq]
    exact List.mem_filter.2 ⟨hn, by simp [h]⟩

theorem claim_C1_witness :
    eByeGoodbye ∈ (merge_with fOldB fNewB fnFr devEn "*").merged.strings ∧
    eByeGoodbye ∈ (merge_with fOldB fNewB fnFr devEn "*").added_strings :=
  claim_C1_amended fOldB fNewB fnFr devEn "*" eByeGoodbye (by decide) (by decide)

/-! ## Claim C2 -/

/-- Claim C2: for coherent tables, every key of new appears exactly once in
merged, every key of old absent from new is absent from merged, and merged
has no duplicate keys. -/
theorem claim_C2 (old new : LocalizedFile) (fn dev tag : String)
    (hw : WFfile old) (hnd : (new.strings.map LocalizedString.key).Nodup) :
    (∀ k ∈ new.strings.map LocalizedString.key,
      ((merge_with old new fn dev tag).merged.strings.map LocalizedString.key).count k
        = 1) ∧
    (∀ k ∈ old.strings.map LocalizedString.key,
      k ∉ new.strings.map LocalizedString.key →
      k ∉ (merge_with old new fn dev tag).merged.strings.map LocalizedString.key) ∧
    ((merge_with old new fn dev tag).merged.strings.map LocalizedString.key).Nodup := by
  have hkeys : (merge_with old new fn dev tag).merged.strings.map LocalizedString.key
      = new.strings.map LocalizedString.key := by
    rw [merged_strings, List.map_map]
    exact List.map_congr_left (fun n _ => mergeStep_key hw n)
  refine ⟨?_, ?_, ?_⟩
  · intro k hk
    rw [hkeys]
    exact List.count_eq_one_of_mem hnd hk
  · intro k _ hkn
    rw [hkeys]
    exact hkn
  · rw [hkeys]
    exact hnd

theorem claim_C2_witness :
    ((merge_with fOldB fNewB fnFr devEn "*").merged.strings.map
      LocalizedString.key).count "HELLO" = 1 ∧
    ((merge_with fOldB fNewB fnFr devEn "*").merged.strings.map
      LocalizedString.key).Nodup := by
  have h := claim_C2 fOldB fNewB fnFr devEn "*" (by decide) (by decide)
  exact ⟨h.1 "HELLO" (by decide), h.2.2⟩

/-! ## Claim C4 -/

/-- Claim C4 is false on the code: with the development-language test true,
an old entry whose value already carries the tag keeps it in merged; no
code path strips or avoids tag-prefixed values for the development
language. -/
theorem claim_C4_counterexample :
    (merge_with fOldTag fNewH fnEn devEn "*").is_dev_language = true ∧
    (merge_with fOldTag fNewH fnEn devEn "*").merged.strings.map LocalizedString.value
      = ["*Bonjour"] ∧
    (∃ e ∈ (merge_with fOldTag fNewH fnEn devEn "*").merged.strings,
      py_startswith e.value "*" = true) := by decide

/-- Claim C4 amended: the merge never prepends the tag to any value;
every merged entry's value is the value of an entry of new or of old, for
any development-language flag, so a tag-prefixed value occurs in merged
only when one of the inputs already carried it. -/
theorem claim_C4_amended (old new : LocalizedFile) (fn dev tag : String)
    (hw : WFfile old) :
    ∀ e ∈ (merge_with old new fn dev tag).merged.strings,
      (∃ n ∈ new.strings, e.value = n.value) ∨
      (∃ o ∈ old.strings, e.value = o.value) := by
  intro e he
  rw [merged_strings] at he
  rcases List.mem_map.1 he with ⟨n, hn, rfl⟩
  cases hg : dget old.strings_d n.key with
  | none =>
    have hM : mergeStep old n = n := by simp [mergeStep, hg]
    rw [hM]
    exact Or.inl ⟨n, hn, rfl⟩
  | some o =>
    have hM : mergeStep old n = { o with comments := n.comments } := by
      simp [mergeStep, hg]
    rw [hM]
    exact Or.inr ⟨o, (wf_dget hw hg).2, rfl⟩

theorem claim_C4_witness :
    (∃ n ∈ fNewH.strings,
      ({ eHelloTagged with comments := eHelloHello.comments }).value = n.value) ∨
    (∃ o ∈ fOldTag.strings,
      ({ eHelloTagged with comments := eHelloHello.comments }).value = o.value) :=
  claim_C4_amended fOldTag fNewH fnEn devEn "*" (by decide)
    { eHelloTagged with comments := eHelloHello.comments } (by decide)

/-! ## Claim C5 -/

/-- Claim C5: for a coherent old table, merged keeps new's key order, and
for every new entry whose key the old index resolves, merged contains the
old entry with only its comments replaced by the new entry's comments, its
value and raw line untouched. -/
theorem claim_C5 (old new : LocalizedFile) (fn dev tag : String) (hw : WFfile old) :
    ((merge_with old new fn dev tag).merged.strings.map LocalizedString.key
      = new.strings.map LocalizedString.key) ∧
    ∀ n ∈ new.strings, ∀ o, dget old.strings_d n.key = some o →
      { o with comments := n.comments } ∈ (merge_with old new fn dev tag).merged.strings := by
  constructor
  · rw [merged_strings, List.map_map]
    exact List.map_congr_left (fun n _ => mergeStep_key hw n)
  · intro n hn o hg
    rw [merged_strings]
    have hM : mergeStep old n = { o with comments := n.comments } := by
      simp [mergeStep, hg]
    have h2 := List.mem_map_of_mem (mergeStep old) hn
    rwa [hM] at h2

/-- Scenario C realised through claim_C5: merging old HELLO-Bonjour,
OLD-Ancien with new HELLO-Hello keeps only HELLO, valued Bonjour with the
new comments, and reports OLD removed. -/
theorem claim_C5_witness :
    ((merge_with fOldC fNewH fnFr devEn "*").merged.strings.map LocalizedString.key
      = ["HELLO"]) ∧
    { eHelloBonjour with comments := eHelloHello.comments }
      ∈ (merge_with fOldC fNewH fnFr devEn "*").merged.strings ∧
    (merge_with fOldC fNewH fnFr devEn "*").removed_report = [eOldAncien] := by
  have h := claim_C5 fOldC fNewH fnFr devEn "*" (by decide)
  refine ⟨?_, ?_, by decide⟩
  · rw [h.1]
    decide
  · exact h.2 eHelloHello (by decide) eHelloBonjour (by decide)

/-! ## Claim C10 -/

/-- Claim C10: the summary numbers are defined for every merge because both
percentage divisions happen only under the guard that their total is
nonzero, and merging any old table with an empty new table yields an empty
merged table. -/
theorem claim_C10 (old new : LocalizedFile) (fn dev tag : String) :
    ((merge_with old new fn dev tag).summary).isSome = true ∧
    (merge_with old LocalizedFile.empty fn dev tag).merged.strings = [] := by
  constructor
  · by_cases h : new.strings.length = 0
    · simp [merge_with, py_div, h]
    · simp [merge_with, py_div, h]
  · rw [merged_strings]
    rfl

/-! ## Claim C3 -/

/-- Claim C3 is false on the code: with an old value already carrying the
tag, the same old entry appears in both translated_strings and
temporary_strings of one merge call, so the four sets are not pairwise
disjoint; moreover the entry HELLO of new is in neither added nor
translated nor temporary when its value is in default (shown in the
amended theorem), and temporary is a subset of translated by construction. -/
theorem claim_C3_counterexample :
    (merge_with fOldTag fNewH fnFr devEn "*").translated_strings = [eHelloTagged] ∧
    (merge_with fOldTag fNewH fnFr devEn "*").temporary_strings = [eHelloTagged] ∧
    (∃ e, e ∈ (merge_with fOldTag fNewH fnFr devEn "*").translated_strings ∧
      e ∈ (merge_with fOldTag fNewH fnFr devEn "*").temporary_strings) := by
  decide

/-- Membership in translated_strings comes from a new entry passing the
translated test, and carries that entry's key. -/
theorem mem_translated {old new : LocalizedFile} {fn dev tag : String}
    {t : LocalizedString} (hw : WFfile old)
    (ht : t ∈ (merge_with old new fn dev tag).translated_strings) :
    ∃ n ∈ new.strings, isTranslatedCase old n = true ∧ t = oldOf old n ∧ t.key = n.key := by
  rw [translated_eq] at ht
  rcases List.mem_map.1 ht with ⟨n, hn, rfl⟩
  have hmem := List.mem_filter.1 hn
  rcases isTranslatedCase_dget hmem.2 with ⟨o, hg, ho, _, _⟩
  exact ⟨n, hmem.1, hmem.2, rfl, by rw [ho]; exact (wf_dget hw hg).1⟩

theorem mem_default {old new : LocalizedFile} {fn dev tag : String}
    {t : LocalizedString} (hw : WFfile old)
    (ht : t ∈ (merge_with old new fn dev tag).default_strings) :
    ∃ n ∈ new.strings, isDefaultCase old n = true ∧ t = oldOf old n ∧ t.key = n.key := by
  rw [default_eq] at ht
  rcases List.mem_map.1 ht with ⟨n, hn, rfl⟩
  have hmem := List.mem_filter.1 hn
  rcases isDefaultCase_dget hmem.2 with ⟨o, hg, ho⟩
  exact ⟨n, hmem.1, hmem.2, rfl, by rw [ho]; exact (wf_dget hw hg).1⟩

theorem mem_added {old new : LocalizedFile} {fn dev tag : String}
    {a : LocalizedString}
    (ha : a ∈ (merge_with old new fn dev tag).added_strings) :
    a ∈ new.strings ∧ dmem old.strings_d a.key = false := by
  rw [added_eq] at ha
  have h := List.mem_filter.1 ha
  exact ⟨h.1, by simpa using h.2⟩

/-- Claim C3 amended: for a coherent old table and a new table without
duplicate keys, the sets added, translated, default and removed are
pairwise key-disjoint, temporary is contained in translated, the keys of
added, translated and default together are exactly the keys of new, and
the keys reported removed are exactly the keys of old that are not keys of
new. -/
theorem claim_C3_amended (old new : LocalizedFile) (fn dev tag : String)
    (hw : WFfile old) (hnd : (new.strings.map LocalizedString.key).Nodup) :
    (∀ a ∈ (merge_with old new fn dev tag).added_strings,
      ∀ t ∈ (merge_with old new fn dev tag).translated_strings, a.key ≠ t.key) ∧
    (∀ a ∈ (merge_with old new fn dev tag).added_strings,
      ∀ d ∈ (merge_with old new fn dev tag).default_strings, a.key ≠ d.key) ∧
    (∀ t ∈ (merge_with old new fn dev tag).translated_strings,
      ∀ d ∈ (merge_with old new fn dev tag).default_strings, t.key ≠ d.key) ∧
    (∀ e ∈ (merge_with old new fn dev tag).temporary_strings,
      e ∈ (merge_with old new fn dev tag).translated_strings) ∧
    (∀ k, k ∈ new.strings.map LocalizedString.key ↔
      (k ∈ (merge_with old new fn dev tag).added_strings.map LocalizedString.key ∨
       k ∈ (merge_with old new fn dev tag).translated_strings.map LocalizedString.key ∨
       k ∈ (merge_with old new fn dev tag).default_strings.map LocalizedString.key)) ∧
    (∀ k, k ∈ (merge_with old new fn dev tag).removed_report.map LocalizedString.key ↔
      (k ∈ old.strings.map LocalizedString.key ∧
       k ∉ new.strings.map LocalizedString.key)) ∧
    (∀ r ∈ (merge_with old new fn dev tag).removed_report,
      ∀ e, (e ∈ (merge_with old new fn dev tag).added_strings ∨
            e ∈ (merge_with old new fn dev tag).translated_strings ∨
            e ∈ (merge_with old new fn dev tag).default_strings ∨
            e ∈ (merge_with old new fn dev tag).temporary_strings) → r.key ≠ e.key) := by
  have hinj := List.inj_on_of_nodup_map hnd
  have hTsub : ∀ e ∈ (merge_with old new fn dev tag).temporary_strings,
      e ∈ (merge_with old new fn dev tag).translated_strings := by
    intro e he
    rw [temporary_eq] at he
    exact (List.mem_filter.1 he).1
  have hAT : ∀ a ∈ (merge_with old new fn dev tag).added_strings,
      ∀ t ∈ (merge_with old new fn dev tag).translated_strings, a.key ≠ t.key := by
    intro a ha t ht hk
    rcases mem_added ha with ⟨_, hdm⟩
    rcases mem_translated hw ht with ⟨n, _, hcase, _, hkey⟩
    rcases isTranslatedCase_dget hcase with ⟨o, hg, _, _, _⟩
    rw [hk, hkey] at hdm
    rw [(dmem_false_iff _ _).1 hdm] at hg
    cases hg
  have hAD : ∀ a ∈ (merge_with old new fn dev tag).added_strings,
      ∀ d ∈ (merge_with old new fn dev tag).default_strings, a.key ≠ d.key := by
    intro a ha d hd hk
    rcases mem_added ha with ⟨_, hdm⟩
    rcases mem_default hw hd with ⟨n, _, hcase, _, hkey⟩
    rcases isDefaultCase_dget hcase with ⟨o, hg, _⟩
    rw [hk, hkey] at hdm
    rw [(dmem_false_iff _ _).1 hdm] at hg
    cases hg
  have hTD : ∀ t ∈ (merge_with old new fn dev tag).translated_strings,
      ∀ d ∈ (merge_with old new fn dev tag).default_strings, t.key ≠ d.key := by
    intro t ht d hd hk
    rcases mem_translated hw ht with ⟨n1, hn1, hc1, _, hk1⟩
    rcases mem_default hw hd with ⟨n2, hn2, hc2, _, hk2⟩
    have : n1 = n2 := hinj hn1 hn2 (by rw [← hk1, ← hk2, hk])
    subst this
    exact not_both_cases old n1 ⟨hc1, hc2⟩
  have hCov : ∀ k, k ∈ new.strings.map LocalizedString.key ↔
      (k ∈ (merge_with old new fn dev tag).added_strings.map LocalizedString.key ∨
       k ∈ (merge_with old new fn dev tag).translated_strings.map LocalizedString.key ∨
       k ∈ (merge_with old new fn dev tag).default_strings.map LocalizedString.key) := by
    intro k
    constructor
    · intro hk
      rcases List.mem_map.1 hk with ⟨n, hn, rfl⟩
      cases hdm : dmem old.strings_d n.key with
      | false =>
        refine Or.inl ?_
        rw [added_eq]
        exact List.mem_map_of_mem _ (List.mem_filter.2 ⟨hn, by simp [hdm]⟩)
      | true =>
        rcases dget_of_dmem hdm with ⟨o, hg⟩
        have hko : (oldOf old n).key = n.key := by
          rw [oldOf_of_dget hg]
          exact (wf_dget hw hg).1
        by_cases hc : isTranslatedCase old n = true
        · refine Or.inr (Or.inl ?_)
          rw [translated_eq]
          have hmem : oldOf old n ∈ (new.strings.filter
              (fun n => isTranslatedCase old n)).map (oldOf old) :=
            List.mem_map_of_mem _ (List.mem_filter.2 ⟨hn, hc⟩)
          rw [List.mem_map]
          exact ⟨oldOf old n, hmem, hko⟩
        · refine Or.inr (Or.inr ?_)
          rw [default_eq]
          have hcf : isTranslatedCase old n = false := by
            cases h' : isTranslatedCase old n
            · rfl
            · exact absurd h' hc
          have hc2 : isDefaultCase old n = true := by
            simp only [isTranslatedCase, hg] at hcf
            simp only [isDefaultCase, hg]
            rw [hcf]
            rfl
          have hmem : oldOf old n ∈ (new.strings.filter
              (fun n => isDefaultCase old n)).map (oldOf old) :=
            List.mem_map_of_mem _ (List.mem_filter.2 ⟨hn, hc2⟩)
          rw [List.mem_map]
          exact ⟨oldOf old n, hmem, hko⟩
    · intro hk
      rcases hk with hk | hk | hk
      · rcases List.mem_map.1 hk with ⟨a, ha, rfl⟩
        exact List.mem_map_of_mem _ (mem_added ha).1
      · rcases List.mem_map.1 hk with ⟨t, ht, rfl⟩
        rcases mem_translated hw ht with ⟨n, hn, _, _, hkey⟩
        rw [hkey]
        exact List.mem_map_of_mem _ hn
      · rcases List.mem_map.1 hk with ⟨d, hd, rfl⟩
        rcases mem_default hw hd with ⟨n, hn, _, _, hkey⟩
        rw [hkey]
        exact List.mem_map_of_mem _ hn
  have hRem : ∀ k,
      k ∈ (merge_with old new fn dev tag).removed_report.map LocalizedString.key ↔
      (k ∈ old.strings.map LocalizedString.key ∧
       k ∉ new.strings.map LocalizedString.key) := by
    intro k
    constructor
    · intro hk
      rcases List.mem_map.1 hk with ⟨r, hr, rfl⟩
      rw [removed_eq] at hr
      have hfil := List.mem_filter.1 hr
      refine ⟨List.mem_map_of_mem _ hfil.1, ?_⟩
      intro hkn
      rcases List.mem_map.1 hkn with ⟨n, hn, hkey⟩
      have hdm : dmem old.strings_d n.key = true := by
        rw [hkey]
        exact hw.2 r hfil.1
      rcases dget_of_dmem hdm with ⟨o, hg⟩
      have hko : (oldOf old n).key = n.key := by
        rw [oldOf_of_dget hg]
        exact (wf_dget hw hg).1
      have hfalse := hfil.2
      simp only [Bool.not_eq_eq_eq_not, Bool.not_true, Bool.or_eq_false_iff,
        List.any_eq_false] at hfalse
      by_cases hc : isTranslatedCase old n = true
      · have hmem : oldOf old n ∈ (merge_with old new fn dev tag).translated_strings := by
          rw [translated_eq]
          exact List.mem_map_of_mem _ (List.mem_filter.2 ⟨hn, hc⟩)
        have := hfalse.2 (oldOf old n) hmem
        rw [hko, hkey] at this
        simp at this
      · have hcf : isTranslatedCase old n = false := by
          cases h' : isTranslatedCase old n
          · rfl
          · exact absurd h' hc
        have hc2 : isDefaultCase old n = true := by
          simp only [isTranslatedCase, hg] at hcf
          simp only [isDefaultCase, hg]
          rw [hcf]
          rfl
        have hmem : oldOf old n ∈ (merge_with old new fn dev tag).default_strings := by
          rw [default_eq]
          exact List.mem_map_of_mem _ (List.mem_filter.2 ⟨hn, hc2⟩)
        have := hfalse.1.2 (oldOf old n) hmem
        rw [hko, hkey] at this
        simp at this
    · rintro ⟨hko, hkn⟩
      rcases List.mem_map.1 hko with ⟨r, hr, rfl⟩
      refine List.mem_map_of_mem _ ?_
      rw [removed_eq]
      refine List.mem_filter.2 ⟨hr, ?_⟩
      simp only [Bool.not_eq_eq_eq_not, Bool.not_true, Bool.or_eq_false_iff,
        List.any_eq_false]
      refine ⟨⟨?_, ?_⟩, ?_⟩
      · intro s hs hks
        rcases mem_added hs with ⟨hsn, _⟩
        exact hkn (by rw [eq_of_beq hks]; exact List.mem_map_of_mem _ hsn)
      · intro s hs hks
        rcases mem_default hw hs with ⟨n, hn, _, _, hkey⟩
        exact hkn (by rw [eq_of_beq hks, hkey]; exact List.mem_map_of_mem _ hn)
      · intro s hs hks
        rcases mem_translated hw hs with ⟨n, hn, _, _, hkey⟩
        exact hkn (by rw [eq_of_beq hks, hkey]; exact List.mem_map_of_mem _ hn)
  refine ⟨hAT, hAD, hTD, hTsub, hCov, hRem, ?_⟩
  intro r hr e he hk
  have hrk := (hRem r.key).1 (List.mem_map_of_mem _ hr)
  rcases he with he | he | he | he
  · rcases mem_added he with ⟨hsn, _⟩
    exact hrk.2 (by rw [hk]; exact List.mem_map_of_mem _ hsn)
  · exact hrk.2 (by
      rcases mem_translated hw he with ⟨n, hn, _, _, hkey⟩
      rw [hk, hkey]
      exact List.mem_map_of_mem _ hn)
  · exact hrk.2 (by
      rcases mem_default hw he with ⟨n, hn, _, _, hkey⟩
      rw [hk, hkey]
      exact List.mem_map_of_mem _ hn)
  · exact hrk.2 (by
      rcases mem_translated hw (hTsub e he) with ⟨n, hn, _, _, hkey⟩
      rw [hk, hkey]
      exact List.mem_map_of_mem _ hn)

theorem claim_C3_witness :
    eByeGoodbye.key ≠ eHelloBonjour.key ∧
    eHelloTagged ∈ (merge_with fOldTag fNewH fnFr devEn "*").translated_strings := by
  constructor
  · have h := claim_C3_amended fOldB fNewB fnFr devEn "*" (by decide) (by decide)
    exact h.1 eByeGoodbye (by decide) eHelloBonjour (by decide)
  · have h := claim_C3_amended fOldTag fNewH fnFr devEn "*" (by decide) (by decide)
    exact h.2.2.2.1 eHelloTagged (by decide)

/-! ## Claim C9 -/

theorem set_len_append (l : Store) (a b : LocalizedString) :
    (l ++ [a]).set l.length b = l ++ [b] := by
  induction l with
  | nil => rfl
  | cons x xs ih => simp [List.set, ih]

theorem sget_len_append (l : Store) (a : LocalizedString) :
    sget (l ++ [a]) l.length = a := by
  unfold sget
  induction l with
  | nil => rfl
  | cons x xs ih => simp only [List.cons_append, List.length_cons, List.getD]; exact ih

/-- The merge loop only ever writes the cells it has freshly allocated: the
incoming store is a prefix of the outgoing store. -/
theorem merge_body_refs_store (oldD : List (String × Nat)) (rs : List Nat) :
    ∀ st mS mD tr ad df, ∃ ext,
      (merge_body_refs oldD rs st mS mD tr ad df).1 = st ++ ext := by
  induction rs with
  | nil =>
    intro st mS mD tr ad df
    exact ⟨[], by simp [merge_body_refs]⟩
  | cons r rest ih =>
    intro st mS mD tr ad df
    cases hdg : dgetN oldD (sget st r).key with
    | none =>
      rcases ih st (mS ++ [r]) (dsetN mD (sget st r).key r) tr (ad ++ [r]) df with
        ⟨ext, hext⟩
      exact ⟨ext, by simp only [merge_body_refs, hdg]; exact hext⟩
    | some ro =>
      have hst2 : setComments (st ++ [sget st ro]) st.length (sget st r).comments =
          st ++ [{ sget st ro with comments := (sget st r).comments }] := by
        unfold setComments
        rw [sget_len_append, set_len_append]
      simp only [merge_body_refs, hdg, copyAlloc, hst2]
      by_cases h1 : (sget st ro).value ≠ (sget st r).value
      · by_cases h2 : (sget st ro).key ≠ (sget st ro).value
        · rw [if_pos h1, if_pos h2]
          rcases ih (st ++ [{ sget st ro with comments := (sget st r).comments }])
            (mS ++ [st.length])
            (dsetN mD (sget (st ++ [{ sget st ro with comments := (sget st r).comments }])
              st.length).key st.length)
            (tr ++ [ro]) ad df with ⟨ext, hext⟩
          refine ⟨{ sget st ro with comments := (sget st r).comments } :: ext, ?_⟩
          rw [hext]
          simp
        · rw [if_pos h1, if_neg h2]
          rcases ih (st ++ [{ sget st ro with comments := (sget st r).comments }])
            (mS ++ [st.length])
            (dsetN mD (sget (st ++ [{ sget st ro with comments := (sget st r).comments }])
              st.length).key st.length)
            tr ad (df ++ [ro]) with ⟨ext, hext⟩
          refine ⟨{ sget st ro with comments := (sget st r).comments } :: ext, ?_⟩
          rw [hext]
          simp
      · rw [if_neg h1]
        rcases ih (st ++ [{ sget st ro with comments := (sget st r).comments }])
          (mS ++ [st.length])
          (dsetN mD (sget (st ++ [{ sget st ro with comments := (sget st r).comments }])
            st.length).key st.length)
          tr ad (df ++ [ro]) with ⟨ext, hext⟩
        refine ⟨{ sget st ro with comments := (sget st r).comments } :: ext, ?_⟩
        rw [hext]
        simp

/-- Claim C9: merge_with leaves every entry of the old and the new table
unchanged; the loop mutates only the fresh copy it allocates, so every
reference held by either input table reads the same cell afterwards. -/
theorem claim_C9 (st : Store) (old new : RefFile)
    (hv : ∀ r ∈ old.strings ++ new.strings, r < st.length) :
    ∀ r ∈ old.strings ++ new.strings,
      ((merge_with_refs st old new).1).get? r = st.get? r ∧
      sget (merge_with_refs st old new).1 r = sget st r := by
  intro r hr
  rcases merge_body_refs_store old.strings_d new.strings st [] [] [] [] [] with ⟨ext, hext⟩
  have hget : ((merge_with_refs st old new).1).get? r = st.get? r := by
    unfold merge_with_refs
    rw [hext]
    exact List.get?_append (hv r hr)
  refine ⟨hget, ?_⟩
  unfold sget
  have hD : ∀ (l : Store) (n : Nat), l.getD n default = (l.get? n).getD default :=
    fun _ _ => rfl
  rw [hD, hD, hget]

/-- Claim C9 witnessed on a two-cell store holding one old and one new
entry for the same key. -/
theorem claim_C9_witness :
    ((merge_with_refs [eHelloBonjour, eHelloHello] ⟨[0], [("HELLO", 0)]⟩
      ⟨[1], [("HELLO", 1)]⟩).1).get? 0 = ([eHelloBonjour, eHelloHello] : Store).get? 0 ∧
    sget (merge_with_refs [eHelloBonjour, eHelloHello] ⟨[0], [("HELLO", 0)]⟩
      ⟨[1], [("HELLO", 1)]⟩).1 1 = sget ([eHelloBonjour, eHelloHello] : Store) 1 := by
  refine ⟨?_, ?_⟩
  · exact (claim_C9 [eHelloBonjour, eHelloHello] ⟨[0], [("HELLO", 0)]⟩
      ⟨[1], [("HELLO", 1)]⟩ (by decide) 0 (by decide)).1
  · exact (claim_C9 [eHelloBonjour, eHelloHello] ⟨[0], [("HELLO", 0)]⟩
      ⟨[1], [("HELLO", 1)]⟩ (by decide) 1 (by decide)).2

/-! ## Claim C8 -/

/-- Claim C8 describes the intended recovery, but the code does not
implement it: with the old file missing, read_from_file raises through its
broken handler, merge's bare except swallows that, and the call
old.merge_with then raises on the unbound local, so the merge produces no
table at all instead of merging against an empty one.  The last two
conjuncts show what the intended recovery would have produced: merging an
empty old table classifies every new entry as added, untagged, and merged
equals new.  A missing new file is fatal in both the code and the claim. -/
theorem claim_C8_bug :
    merge_files none (some "/* b */\n\"HELLO\" = \"Hello\";\n") fnFr devEn "*"
      = .error .unboundName ∧
    merge_files (some "/* b */\n\"HELLO\" = \"Hello\";\n") none fnFr devEn "*"
      = .error .unboundName ∧
    (merge_with LocalizedFile.empty (fileOf [eHelloHello]) fnFr devEn "*").added_strings
      = [eHelloHello] ∧
    (merge_with LocalizedFile.empty (fileOf [eHelloHello]) fnFr devEn "*").merged.strings
      = [eHelloHello] ∧
    (merge_with LocalizedFile.empty (fileOf [eHelloHello]) fnFr devEn "*").temporary_strings
      = [] := by decide

/-! ## Parser lemmas -/

theorem mk_data (s : String) : String.mk s.data = s := by
  cases s
  rfl

theorem str_ne_empty_iff {s : String} : s ≠ "" ↔ s.data ≠ [] := by
  constructor
  · intro h hd
    exact h (by rw [← mk_data s, hd])
  · intro h he
    exact h (by rw [he])

theorem splitLinesAux_ne (cs : List Char) :
    ∀ acc, ∀ l ∈ splitLinesAux cs acc, l ≠ "" := by
  induction cs with
  | nil =>
    intro acc l hl
    unfold splitLinesAux at hl
    cases hacc : acc.isEmpty with
    | true => rw [hacc] at hl; simp at hl
    | false =>
      rw [hacc] at hl
      simp only [Bool.false_eq_true, if_false, List.mem_singleton] at hl
      subst hl
      rw [str_ne_empty_iff]
      intro hc
      have hrev : acc.reverse = [] := hc
      have : acc = [] := by simpa using congrArg List.reverse hrev
      rw [this] at hacc
      simp at hacc
  | cons c cs ih =>
    intro acc l hl
    unfold splitLinesAux at hl
    by_cases h : c = '\n'
    · rw [if_pos h] at hl
      cases hl with
      | head =>
        rw [str_ne_empty_iff]
        intro hc
        have h2 : acc.reverse ++ ['\n'] = [] := hc
        simp at h2
      | tail _ hl => exact ih [] l hl
    · rw [if_neg h] at hl
      exact ih (c :: acc) l hl

theorem splitLines_ne (text : String) : NEchunks (splitLines text) :=
  fun l hl => splitLinesAux_ne text.data [] l hl

theorem NEchunks_suffix {ls ls' : List String} (h : NEchunks ls)
    (hs : ∃ pre, ls = pre ++ ls') : NEchunks ls' := by
  rcases hs with ⟨pre, rfl⟩
  intro l hl
  exact h l (List.mem_append_right pre hl)

theorem NEchunks_tail {l : String} {ls : List String} (h : NEchunks (l :: ls)) :
    NEchunks ls :=
  fun x hx => h x (List.mem_cons_of_mem l hx)

/-- commentScan does not run at all when the current line is empty or
already matches the end pattern. -/
theorem commentScan_stop {line : String} (ls acc : List String)
    (h : line = "" ∨ re_comment_end line = true) :
    commentScan line ls acc = (acc, ls) := by
  have hneg : ¬(line ≠ "" ∧ re_comment_end line = false) := by
    rintro ⟨h1, h2⟩
    rcases h with h | h
    · exact h1 h
    · rw [h] at h2
      cases h2
  rw [commentScan.eq_def, if_neg hneg]

/-- commentScan consumes the body and stops just after the first line
matching the end pattern. -/
theorem commentScan_end (body : List String) :
    ∀ (line : String) (acc : List String) (lk : String) (rest : List String),
    line ≠ "" → re_comment_end line = false →
    (∀ b ∈ body, b ≠ "" ∧ re_comment_end b = false) →
    re_comment_end lk = true →
    commentScan line (body ++ lk :: rest) acc = (acc ++ body ++ [lk], rest) := by
  induction body with
  | nil =>
    intro line acc lk rest hne hend _ hlk
    rw [commentScan.eq_def, if_pos ⟨hne, hend⟩]
    simp only [List.nil_append]
    rw [commentScan_stop _ _ (Or.inr hlk)]
    simp
  | cons b bs ih =>
    intro line acc lk rest hne hend hbody hlk
    rw [commentScan.eq_def, if_pos ⟨hne, hend⟩]
    simp only [List.cons_append]
    rw [ih b (acc ++ [b]) lk rest (hbody b (List.mem_cons_self b bs)).1
      (hbody b (List.mem_cons_self b bs)).2
      (fun x hx => hbody x (List.mem_cons_of_mem b hx)) hlk]
    simp

/-- commentScan that never meets an end match consumes everything and
appends the empty end-of-file read. -/
theorem commentScan_eof (body : List String) :
    ∀ (line : String) (acc : List String),
    line ≠ "" → re_comment_end line = false →
    (∀ b ∈ body, b ≠ "" ∧ re_comment_end b = false) →
    commentScan line body acc = (acc ++ body ++ [""], []) := by
  induction body with
  | nil =>
    intro line acc hne hend _
    rw [commentScan.eq_def, if_pos ⟨hne, hend⟩]
    simp
  | cons b bs ih =>
    intro line acc hne hend hbody
    rw [commentScan.eq_def, if_pos ⟨hne, hend⟩]
    have hstep : (match b :: bs with
        | [] => (acc ++ [""], ([] : List String))
        | l :: rest => commentScan l rest (acc ++ [l]))
        = commentScan b bs (acc ++ [b]) := rfl
    rw [hstep, ih b (acc ++ [b]) (hbody b (List.mem_cons_self b bs)).1
      (hbody b (List.mem_cons_self b bs)).2
      (fun x hx => hbody x (List.mem_cons_of_mem b hx))]
    simp

theorem skipScan_newline (ls : List String) :
    skipScan "\n" ls = skipScan (readline ls).1 (readline ls).2 := by
  rw [skipScan.eq_def, if_pos rfl]
  cases ls with
  | nil => simp [readline, skipScan]
  | cons l r => rfl

/-- The blank skip realises the BlankSkipRel relation. -/
theorem skipScan_run {line' : String} {rest : List String} (blanks : List String) :
    ∀ ls, (∀ b ∈ blanks, b = "\n") →
    ((ls = blanks ++ line' :: rest ∧ line' ≠ "\n") ∨
     (ls = blanks ∧ line' = "" ∧ rest = [])) →
    skipScan (readline ls).1 (readline ls).2 = (line', rest) := by
  induction blanks with
  | nil =>
    intro ls _ hcase
    rcases hcase with ⟨rfl, hne⟩ | ⟨rfl, rfl, rfl⟩
    · show skipScan line' rest = (line', rest)
      rw [skipScan.eq_def, if_neg hne]
    · show skipScan "" [] = ("", [])
      rw [skipScan.eq_def, if_neg (by decide)]
  | cons b bs ih =>
    intro ls hb hcase
    have hbnl : b = "\n" := hb b (List.mem_cons_self b bs)
    subst hbnl
    rcases hcase with ⟨rfl, hne⟩ | ⟨rfl, rfl, rfl⟩
    · show skipScan "\n" (bs ++ line' :: rest) = (line', rest)
      rw [skipScan_newline]
      exact ih (bs ++ line' :: rest) (fun x hx => hb x (List.mem_cons_of_mem _ hx))
        (Or.inl ⟨rfl, hne⟩)
    · show skipScan "\n" bs = ("", [])
      rw [skipScan_newline]
      exact ih bs (fun x hx => hb x (List.mem_cons_of_mem _ hx)) (Or.inr ⟨rfl, rfl, rfl⟩)

/-- Every chunk list admits a blank-skip decomposition. -/
theorem skip_total (ls : List String) :
    ∃ line' rest, BlankSkipRel ls line' rest := by
  induction ls with
  | nil => exact ⟨"", [], [], by simp⟩
  | cons l tail ih =>
    by_cases h : l = "\n"
    · rcases ih with ⟨line', rest, blanks, hb, hcase⟩
      subst h
      refine ⟨line', rest, "\n" :: blanks, ?_, ?_⟩
      · intro x hx
        rcases List.mem_cons.1 hx with rfl | hx
        · rfl
        · exact hb x hx
      · rcases hcase with ⟨rfl, hne⟩ | ⟨rfl, h1, h2⟩
        · exact Or.inl ⟨rfl, hne⟩
        · exact Or.inr ⟨rfl, h1, h2⟩
    · exact ⟨l, tail, [], by simp, Or.inl ⟨rfl, h⟩⟩

/-- The comment phase of parseStep realises the CaptureRel relation. -/
theorem capture_run {line : String} {ls cs ls1 : List String}
    (hne : line ≠ "") (hNE : NEchunks ls)
    (hc : CaptureRel line ls cs ls1) :
    (if re_comment_single line then ([line], ls) else commentScan line ls [line])
      = (cs, ls1) := by
  rcases hc with ⟨h1, rfl, rfl⟩ | ⟨h1, h2, rfl, rfl⟩ | ⟨h1, h2, hrest⟩
  · rw [if_pos h1]
  · rw [if_neg (by rw [h1]; intro h; cases h)]
    exact commentScan_stop _ _ (Or.inr h2)
  · rw [if_neg (by rw [h1]; intro h; cases h)]
    rcases hrest with ⟨body, lk, rest1, rfl, hbody, hlk, rfl, rfl⟩ | ⟨hall, rfl, rfl⟩
    · rw [commentScan_end body line [line] lk ls1 hne h2
        (fun b hb => ⟨hNE b (List.mem_append_left _ hb), hbody b hb⟩) hlk]
      simp
    · rw [commentScan_eof ls line [line] hne h2
        (fun b hb => ⟨hNE b hb, hall b hb⟩)]
      simp

/-- Any chunk list splits at the first end-matching line or has none. -/
theorem find_end (ls : List String) :
    (∃ body lk rest1, ls = body ++ lk :: rest1 ∧
      (∀ b ∈ body, re_comment_end b = false) ∧ re_comment_end lk = true) ∨
    (∀ b ∈ ls, re_comment_end b = false) := by
  induction ls with
  | nil => exact Or.inr (by simp)
  | cons l tail ih =>
    cases he : re_comment_end l with
    | true => exact Or.inl ⟨[], l, tail, by simp, by simp, he⟩
    | false =>
      rcases ih with ⟨body, lk, rest1, rfl, hbody, hlk⟩ | hall
      · refine Or.inl ⟨l :: body, lk, rest1, by simp, ?_, hlk⟩
        intro b hb
        rcases List.mem_cons.1 hb with rfl | hb
        · exact he
        · exact hbody b hb
      · refine Or.inr ?_
        intro b hb
        rcases List.mem_cons.1 hb with rfl | hb
        · exact he
        · exact hall b hb

/-- Every nonempty current line admits a comment capture. -/
theorem capture_total (line : String) (ls : List String) :
    ∃ cs ls1, CaptureRel line ls cs ls1 := by
  cases h1 : re_comment_single line with
  | true => exact ⟨[line], ls, Or.inl ⟨h1, rfl, rfl⟩⟩
  | false =>
    cases h2 : re_comment_end line with
    | true => exact ⟨[line], ls, Or.inr (Or.inl ⟨h1, h2, rfl, rfl⟩)⟩
    | false =>
      rcases find_end ls with ⟨body, lk, rest1, rfl, hbody, hlk⟩ | hall
      · exact ⟨line :: (body ++ [lk]), rest1,
          Or.inr (Or.inr ⟨h1, h2, Or.inl ⟨body, lk, rest1, rfl, hbody, hlk, rfl, rfl⟩⟩)⟩
      · exact ⟨(line :: ls) ++ [""], [],
          Or.inr (Or.inr ⟨h1, h2, Or.inr ⟨hall, rfl, rfl⟩⟩)⟩

/-- The unread rest of a comment capture is a suffix of the input. -/
theorem capture_suffix {line : String} {ls cs ls1 : List String}
    (hc : CaptureRel line ls cs ls1) : ∃ pre, ls = pre ++ ls1 := by
  rcases hc with ⟨_, _, rfl⟩ | ⟨_, _, _, rfl⟩ | ⟨_, _, hrest⟩
  · exact ⟨[], rfl⟩
  · exact ⟨[], rfl⟩
  · rcases hrest with ⟨body, lk, rest1, rfl, _, _, _, rfl⟩ | ⟨_, _, rfl⟩
    · exact ⟨body ++ [lk], by simp⟩
    · exact ⟨ls, by simp⟩

theorem readline_ne {ls : List String} {t : String} {ls2 : List String}
    (h : readline ls = (t, ls2)) (ht : t ≠ "") : ls = t :: ls2 := by
  cases ls with
  | nil =>
    injection h with h1 h2
    exact absurd h1.symm ht
  | cons l r =>
    injection h with h1 h2
    rw [h1, h2]

/-- A good record strictly shortens the unread chunk list, through a suffix. -/
theorem good_len {line : String} {ls : List String} {e : LocalizedString}
    {line' : String} {ls' : List String}
    (hg : GoodRecord line ls e line' ls') :
    ls'.length < ls.length ∧ ∃ pre, ls = pre ++ ls' := by
  obtain ⟨_, cs, ls1, t, ls2, hcap, hrl, ht, _, hskip, _⟩ := hg
  obtain ⟨pre1, hpre1⟩ := capture_suffix hcap
  have hls1 : ls1 = t :: ls2 := readline_ne hrl ht
  obtain ⟨blanks, _, hcase⟩ := hskip
  rcases hcase with ⟨hls2, _⟩ | ⟨hls2, _, rfl⟩
  · constructor
    · rw [hpre1, hls1, hls2]
      simp
      omega
    · exact ⟨pre1 ++ t :: blanks ++ [line'], by rw [hpre1, hls1, hls2]; simp⟩
  · constructor
    · rw [hpre1, hls1]
      simp
    · exact ⟨pre1 ++ t :: ls2, by rw [hpre1, hls1]; simp⟩

/-- parseStep produces the entry a good record describes. -/
theorem parseStep_good {line : String} {ls : List String} {e : LocalizedString}
    {line' : String} {ls' : List String} (hNE : NEchunks ls) (f : Bool)
    (hg : GoodRecord line ls e line' ls') :
    parseStep line ls f = .entry e line' ls' := by
  obtain ⟨hne, cs, ls1, t, ls2, hcap, hrl, ht, hmat, hskip, he⟩ := hg
  obtain ⟨blanks, hb, hcase⟩ := hskip
  have hscan := capture_run hne hNE hcap
  have hskip2 := skipScan_run blanks ls2 hb hcase
  simp only [parseStep, hscan, hrl]
  rw [if_pos ⟨ht, hmat⟩]
  simp only [hskip2, he]

/-- parseStep fails on a malformed tail once an entry has been found. -/
theorem parseStep_bad {line : String} {ls : List String} (hNE : NEchunks ls)
    (hb : BadTail line ls) : parseStep line ls true = .bad := by
  obtain ⟨hne, cs, ls1, hcap, hlast, hkv⟩ := hb
  simp only [parseStep, capture_run hne hNE hcap]
  rw [if_neg ?_, if_neg ?_]
  · rintro (h | h)
    · exact hlast h
    · cases h
  · rintro ⟨hta, htb⟩
    rcases hkv with h | h
    · exact hta h
    · rw [h] at htb
      cases htb

/-- parseStep stops silently on a malformed tail when no entry was found. -/
theorem parseStep_stop_nofound {line : String} {ls : List String} (hNE : NEchunks ls)
    (hb : BadTail line ls) : parseStep line ls false = .stop := by
  obtain ⟨hne, cs, ls1, hcap, hlast, hkv⟩ := hb
  simp only [parseStep, capture_run hne hNE hcap]
  rw [if_neg ?_]
  · simp
  · rintro ⟨hta, htb⟩
    rcases hkv with h | h
    · exact hta h
    · rw [h] at htb
      cases htb

/-- parseStep stops silently on a tail whose capture ended at end of file. -/
theorem parseStep_stop_weak {line : String} {ls : List String} (hNE : NEchunks ls)
    (f : Bool) (hw : WeakTail line ls) : parseStep line ls f = .stop := by
  obtain ⟨hne, cs, ls1, hcap, hlast, hkv⟩ := hw
  simp only [parseStep, capture_run hne hNE hcap]
  rw [if_neg ?_, if_pos (Or.inl hlast)]
  rintro ⟨hta, htb⟩
  rcases hkv with h | h
  · exact hta h
  · rw [h] at htb
    cases htb

/-- Exhaustive classification of a parseStep on a nonempty line: a good
record, a malformed tail, or a weak tail. -/
theorem parseStep_cases (line : String) (ls : List String) (f : Bool)
    (hne : line ≠ "") (hNE : NEchunks ls) :
    (∃ e line' ls', GoodRecord line ls e line' ls' ∧
      parseStep line ls f = .entry e line' ls') ∨
    (BadTail line ls ∧ parseStep line ls f = (if f then .bad else .stop)) ∨
    (WeakTail line ls ∧ parseStep line ls f = .stop) := by
  obtain ⟨cs, ls1, hcap⟩ := capture_total line ls
  obtain ⟨t, ls2, hrl⟩ : ∃ t ls2, readline ls1 = (t, ls2) := ⟨_, _, rfl⟩
  by_cases ht : t ≠ "" ∧ (re_translation t).isSome = true
  · obtain ⟨line', rest', hsk⟩ := skip_total ls2
    have hg : GoodRecord line ls (LocalizedString.ofParts cs t) line' rest' :=
      ⟨hne, cs, ls1, t, ls2, hcap, hrl, ht.1, ht.2, hsk, rfl⟩
    exact Or.inl ⟨_, line', rest', hg, parseStep_good hNE f hg⟩
  · have hkv : (readline ls1).1 = "" ∨ re_translation (readline ls1).1 = none := by
      rw [hrl]
      by_cases h0 : t = ""
      · exact Or.inl h0
      · refine Or.inr ?_
        cases hm : re_translation t with
        | none => rfl
        | some kv => exact absurd ⟨h0, by rw [hm]; rfl⟩ ht
    by_cases hlast : cs.getLastD "" = ""
    · exact Or.inr (Or.inr ⟨⟨hne, cs, ls1, hcap, hlast, hkv⟩,
        parseStep_stop_weak hNE f ⟨hne, cs, ls1, hcap, hlast, hkv⟩⟩)
    · refine Or.inr (Or.inl ⟨⟨hne, cs, ls1, hcap, hlast, hkv⟩, ?_⟩)
      cases f with
      | true => simpa using parseStep_bad hNE ⟨hne, cs, ls1, hcap, hlast, hkv⟩
      | false => simpa using parseStep_stop_nofound hNE ⟨hne, cs, ls1, hcap, hlast, hkv⟩

/-- The fuel read_from_string supplies never runs out. -/
theorem parseLoop_some : ∀ (fuel : Nat) (line : String) (ls : List String) (f : Bool)
    (acc : LocalizedFile), NEchunks ls → ls.length < fuel →
    (parseLoop fuel line ls f acc).isSome = true := by
  intro fuel
  induction fuel with
  | zero =>
    intro line ls f acc _ h
    omega
  | succ n ih =>
    intro line ls f acc hNE hlen
    rw [parseLoop]
    by_cases hline : line = ""
    · rw [if_pos hline]
      rfl
    · rw [if_neg hline]
      rcases parseStep_cases line ls f hline hNE with
        ⟨e, l1, ls1, hg, hstep⟩ | ⟨hb, hstep⟩ | ⟨hw, hstep⟩
      · rw [hstep]
        obtain ⟨hlt, pre, hpre⟩ := good_len hg
        exact ih l1 ls1 true (acc.push e) (NEchunks_suffix hNE ⟨pre, hpre⟩) (by omega)
      · rw [hstep]
        cases f <;> simp
      · rw [hstep]
        rfl

/-- The parse result does not depend on the fuel as long as it suffices. -/
theorem parseLoop_irrel : ∀ (f1 f2 : Nat) (line : String) (ls : List String)
    (found : Bool) (acc : LocalizedFile), NEchunks ls →
    ls.length < f1 → ls.length < f2 →
    parseLoop f1 line ls found acc = parseLoop f2 line ls found acc := by
  intro f1
  induction f1 with
  | zero =>
    intro f2 line ls found acc _ h _
    omega
  | succ n ih =>
    intro f2 line ls found acc hNE hlen1 hlen2
    cases f2 with
    | zero => omega
    | succ m =>
      rw [parseLoop, parseLoop]
      by_cases hline : line = ""
      · rw [if_pos hline, if_pos hline]
      · rw [if_neg hline, if_neg hline]
        rcases parseStep_cases line ls found hline hNE with
          ⟨e, l1, ls1, hg, hstep⟩ | ⟨_, hstep⟩ | ⟨_, hstep⟩
        · rw [hstep]
          obtain ⟨hlt, pre, hpre⟩ := good_len hg
          exact ih m l1 ls1 true (acc.push e) (NEchunks_suffix hNE ⟨pre, hpre⟩)
            (by omega) (by omega)
        · rw [hstep]
          cases found <;> rfl
        · rw [hstep]

/-- Running the loop across a run of complete records pushes exactly their
entries and sets found_one once the run is nonempty. -/
theorem run_records : ∀ {line : String} {ls : List String} {es : List LocalizedString}
    {line' : String} {ls' : List String}, Records line ls es line' ls' →
    NEchunks ls →
    ((NEchunks ls' ∧ ∃ pre, ls = pre ++ ls') ∧
     ∀ (f : Bool) (acc : LocalizedFile) (fuel : Nat), ls.length < fuel →
      parseLoop fuel line ls f acc =
        parseLoop (ls'.length + 1) line' ls' (f || !es.isEmpty) (pushAll acc es)) := by
  intro line ls es line' ls' hrec
  induction hrec with
  | nil l l2 =>
    intro hNE
    refine ⟨⟨hNE, [], by simp⟩, ?_⟩
    intro f acc fuel hlen
    have h := parseLoop_irrel fuel (l2.length + 1) l l2 f acc hNE hlen (by omega)
    simpa using h
  | cons l ls0 e l1 ls1 es0 lf lsf hg hrest ih =>
    intro hNE
    obtain ⟨hlt, pre, hpre⟩ := good_len hg
    have hNE1 : NEchunks ls1 := NEchunks_suffix hNE ⟨pre, hpre⟩
    obtain ⟨⟨hNEf, pref, hpref⟩, hrun⟩ := ih hNE1
    refine ⟨⟨hNEf, pre ++ pref, by rw [hpre, hpref]; simp⟩, ?_⟩
    intro f acc fuel hlen
    cases fuel with
    | zero => omega
    | succ n =>
      rw [parseLoop, if_neg hg.1, parseStep_good hNE f hg]
      show parseLoop n l1 ls1 true (acc.push e) = _
      rw [hrun true (acc.push e) n (by omega)]
      simp [pushAll_cons]

theorem parseLoop_eof (fuel : Nat) (ls : List String) (f : Bool)
    (acc : LocalizedFile) (h : 0 < fuel) :
    parseLoop fuel "" ls f acc = some (.ok acc) := by
  cases fuel with
  | zero => omega
  | succ n => rw [parseLoop, if_pos rfl]

theorem parseLoop_bad_tail {line : String} {ls : List String} (fuel : Nat)
    (acc : LocalizedFile) (hNE : NEchunks ls) (hb : BadTail line ls) (h : 0 < fuel) :
    parseLoop fuel line ls true acc = some (.error ()) := by
  cases fuel with
  | zero => omega
  | succ n => rw [parseLoop, if_neg hb.1, parseStep_bad hNE hb]

theorem parseLoop_stop_weak {line : String} {ls : List String} (fuel : Nat) (f : Bool)
    (acc : LocalizedFile) (hNE : NEchunks ls) (hw : WeakTail line ls) (h : 0 < fuel) :
    parseLoop fuel line ls f acc = some (.ok acc) := by
  cases fuel with
  | zero => omega
  | succ n => rw [parseLoop, if_neg hw.1, parseStep_stop_weak hNE f hw]

theorem parseLoop_stop_nofound {line : String} {ls : List String} (fuel : Nat)
    (acc : LocalizedFile) (hNE : NEchunks ls) (hb : BadTail line ls) (h : 0 < fuel) :
    parseLoop fuel line ls false acc = some (.ok acc) := by
  cases fuel with
  | zero => omega
  | succ n => rw [parseLoop, if_neg hb.1, parseStep_stop_nofound hNE hb]

/-- An error of the loop decomposes the input into a run of records
followed by a malformed tail; entries must have been found when the run
started with found_one unset. -/
theorem error_decomp : ∀ (n : Nat) {line : String} {ls : List String} {f : Bool}
    {acc : LocalizedFile}, ls.length < n → NEchunks ls →
    parseLoop n line ls f acc = some (.error ()) →
    ∃ es line' ls', Records line ls es line' ls' ∧ (f = true ∨ es ≠ []) ∧
      BadTail line' ls' := by
  intro n
  induction n with
  | zero =>
    intro line ls f acc h
    omega
  | succ m ih =>
    intro line ls f acc hlen hNE herr
    rw [parseLoop] at herr
    by_cases hline : line = ""
    · rw [if_pos hline] at herr
      simp at herr
    · rw [if_neg hline] at herr
      rcases parseStep_cases line ls f hline hNE with
        ⟨e, l1, ls1, hg, hstep⟩ | ⟨hb, hstep⟩ | ⟨hw, hstep⟩
      · rw [hstep] at herr
        obtain ⟨hlt, pre, hpre⟩ := good_len hg
        have hNE1 := NEchunks_suffix hNE ⟨pre, hpre⟩
        obtain ⟨es, line', ls', hrec, _, hbad⟩ := ih (by omega) hNE1 herr
        exact ⟨e :: es, line', ls',
          Records.cons _ _ _ _ _ _ _ _ hg hrec, Or.inr (by simp), hbad⟩
      · rw [hstep] at herr
        cases hf : f with
        | true => exact ⟨[], line, ls, Records.nil _ _, Or.inl rfl, hb⟩
        | false =>
          rw [hf] at herr
          simp at herr
      · rw [hstep] at herr
        simp at herr

/-! ## Claim C7 -/

/-- Claim C7: parsing raises the malformed-file exception exactly when, after
a nonempty run of complete records, the next comment capture does not end in
the empty end-of-file read and is followed by no valid key-value line; and
whenever the offending tail has an end-of-file-terminated capture, or no
record was parsed before it, the parse instead returns the entries collected
so far. -/
theorem claim_C7 (text : String) :
    (read_from_string text = some (.error ()) ↔
      ∃ es line' ls',
        Records (readline (splitLines text)).1 (readline (splitLines text)).2 es line' ls' ∧
        es ≠ [] ∧ BadTail line' ls') ∧
    (∀ es line' ls',
      Records (readline (splitLines text)).1 (readline (splitLines text)).2 es line' ls' →
      (WeakTail line' ls' ∨ (es = [] ∧ BadTail line' ls')) →
      read_from_string text = some (.ok (pushAll LocalizedFile.empty es))) := by
  have hNE : NEchunks (readline (splitLines text)).2 := by
    cases h : splitLines text with
    | nil =>
      intro l hl
      cases hl
    | cons a t =>
      intro l hl
      have h2 := splitLines_ne text
      rw [h] at h2
      exact h2 l (List.mem_cons_of_mem a hl)
  have hlen : (readline (splitLines text)).2.length < (splitLines text).length + 1 := by
    cases h : splitLines text with
    | nil => simp [readline]
    | cons a t =>
      simp only [readline, List.length_cons]
      omega
  have hread : read_from_string text = parseLoop ((splitLines text).length + 1)
      (readline (splitLines text)).1 (readline (splitLines text)).2 false
      LocalizedFile.empty := rfl
  constructor
  · constructor
    · intro herr
      rw [hread] at herr
      obtain ⟨es, line', ls', hrec, hor, hbad⟩ := error_decomp _ hlen hNE herr
      refine ⟨es, line', ls', hrec, ?_, hbad⟩
      rcases hor with h | h
      · cases h
      · exact h
    · rintro ⟨es, line', ls', hrec, hne, hbad⟩
      obtain ⟨⟨hNEf, _⟩, hrun⟩ := run_records hrec hNE
      rw [hread, hrun false LocalizedFile.empty _ hlen]
      have hfound : (false || !es.isEmpty) = true := by
        cases es with
        | nil => exact absurd rfl hne
        | cons a t => rfl
      rw [hfound]
      exact parseLoop_bad_tail _ _ hNEf hbad (by omega)
  · intro es line' ls' hrec hcase
    obtain ⟨⟨hNEf, _⟩, hrun⟩ := run_records hrec hNE
    rw [hread, hrun false LocalizedFile.empty _ hlen]
    rcases hcase with hw | ⟨rfl, hbad⟩
    · exact parseLoop_stop_weak _ _ _ hNEf hw (by omega)
    · have hfound : (false || !(List.isEmpty ([] : List LocalizedString))) = false := rfl
      rw [hfound]
      exact parseLoop_stop_nofound _ _ hNEf hbad (by omega)

theorem claim_C7_witness :
    ∃ es line' ls',
      Records (readline (splitLines "/* a */\n\"K\" = \"V\";\n\n/* b */\njunk\n")).1
        (readline (splitLines "/* a */\n\"K\" = \"V\";\n\n/* b */\njunk\n")).2
        es line' ls' ∧
      es ≠ [] ∧ BadTail line' ls' :=
  (claim_C7 "/* a */\n\"K\" = \"V\";\n\n/* b */\njunk\n").1.mp (by decide)

/-! ## Claim C6 -/

theorem join_foldl_data (L : List String) :
    ∀ (s : String), (L.foldl (fun r t => r ++ t) s).data = s.data ++ L.flatMap String.data := by
  induction L with
  | nil =>
    intro s
    simp
  | cons a t ih =>
    intro s
    rw [List.foldl_cons, ih (s ++ a)]
    simp

theorem join_data (L : List String) : (String.join L).data = L.flatMap String.data := by
  have h := join_foldl_data L ""
  simpa [String.join] using h

theorem properLine_decomp {l : String} (h : properLineB l = true) :
    ∃ body, l.data = body ++ ['\n'] ∧ '\n' ∉ body := by
  unfold properLineB at h
  simp only [Bool.and_eq_true, beq_iff_eq, Bool.not_eq_true'] at h
  refine ⟨l.data.dropLast, (List.dropLast_append_getLast? '\n' h.1).symm, ?_⟩
  intro hm
  rw [← List.elem_iff] at hm
  have h2 : List.elem '\n' l.data.dropLast = false := h.2
  rw [hm] at h2
  cases h2

theorem properLine_ne {l : String} (h : properLineB l = true) : l ≠ "" := by
  obtain ⟨body, hb, _⟩ := properLine_decomp h
  rw [str_ne_empty_iff, hb]
  simp

theorem splitLinesAux_proper (body : List Char) :
    ∀ (rest : List Char) (acc : List Char), '\n' ∉ body →
    splitLinesAux (body ++ '\n' :: rest) acc =
      String.mk (acc.reverse ++ (body ++ ['\n'])) :: splitLinesAux rest [] := by
  induction body with
  | nil =>
    intro rest acc _
    rw [List.nil_append, splitLinesAux, if_pos rfl]
    simp
  | cons c cs ih =>
    intro rest acc hnl
    have hc : ¬(c = '\n') := by
      intro h
      exact hnl (by rw [h]; exact List.mem_cons_self _ _)
    rw [List.cons_append, splitLinesAux, if_neg hc, ih rest (c :: acc)
      (fun h => hnl (List.mem_cons_of_mem c h))]
    simp

theorem splitLines_flat : ∀ (L : List String), (∀ l ∈ L, properLineB l = true) →
    splitLinesAux (L.flatMap String.data) [] = L := by
  intro L
  induction L with
  | nil => intro _; rfl
  | cons l t ih =>
    intro hp
    obtain ⟨body, hbody, hnl⟩ := properLine_decomp (hp l (List.mem_cons_self l t))
    rw [List.flatMap_cons, hbody]
    have hshift : (body ++ ['\n']) ++ t.flatMap String.data
        = body ++ '\n' :: t.flatMap String.data := by simp
    rw [hshift, splitLinesAux_proper body _ [] hnl,
      ih (fun x hx => hp x (List.mem_cons_of_mem l hx))]
    rw [List.reverse_nil, List.nil_append, ← hbody, mk_data]

theorem unicode_data (e : LocalizedString) :
    (LocalizedString.unicode e).data
      = (e.comments ++ [e.translation, "\n"]).flatMap String.data := by
  unfold LocalizedString.unicode
  show (String.join e.comments).data ++ e.translation.data ++ ['\n'] = _
  rw [join_data]
  simp

theorem save_content_data (f : LocalizedFile) :
    (save_content f).data
      = (f.strings.flatMap (fun e => e.comments ++ [e.translation, "\n"])).flatMap
          String.data := by
  unfold save_content
  rw [join_data]
  induction f.strings with
  | nil => rfl
  | cons e t ih =>
    rw [List.map_cons, List.flatMap_cons, List.flatMap_cons, ih]
    rw [unicode_data e]
    simp

/-- The serialized table splits back into exactly the records' lines. -/
theorem save_content_lines (f : LocalizedFile)
    (h : ∀ e ∈ f.strings,
      (∀ c ∈ e.comments, properLineB c = true) ∧ properLineB e.translation = true) :
    splitLines (save_content f) =
      f.strings.flatMap (fun e => e.comments ++ [e.translation, "\n"]) := by
  unfold splitLines
  rw [save_content_data]
  refine splitLines_flat _ ?_
  intro l hl
  rcases List.mem_flatMap.1 hl with ⟨e, he, hle⟩
  rcases List.mem_append.1 hle with hc | ht
  · exact (h e he).1 l hc
  · rcases List.mem_cons.1 ht with rfl | ht
    · exact (h e he).2
    · rcases List.mem_cons.1 ht with rfl | ht
      · decide
      · cases ht

theorem entryShape_parts {e : LocalizedString} (h : entryShapeB e = true) :
    commentShapeB e.comments = true ∧ (∀ c ∈ e.comments, properLineB c = true) ∧
    properLineB e.translation = true ∧ (re_translation e.translation).isSome = true ∧
    e = LocalizedString.ofParts e.comments e.translation := by
  unfold entryShapeB at h
  simp only [Bool.and_eq_true, List.all_eq_true, beq_iff_eq] at h
  exact ⟨h.1.1.1.1, h.1.1.1.2, h.1.1.2, h.1.2, h.2⟩

/-- A well-grouped comment list is captured whole, whatever follows it. -/
theorem commentShape_capture {l0 : String} {cs0 : List String}
    (h : commentShapeB (l0 :: cs0) = true) (tail : List String) :
    CaptureRel l0 (cs0 ++ tail) (l0 :: cs0) tail := by
  cases cs0 with
  | nil =>
    unfold commentShapeB at h
    simp only [Bool.or_eq_true] at h
    by_cases hs : re_comment_single l0 = true
    · exact Or.inl ⟨hs, rfl, by simp⟩
    · have hs' : re_comment_single l0 = false := by
        cases hx : re_comment_single l0
        · rfl
        · exact absurd hx hs
      rcases h with h | h
      · exact absurd h hs
      · exact Or.inr (Or.inl ⟨hs', h, rfl, by simp⟩)
  | cons c1 crest =>
    unfold commentShapeB at h
    simp only [Bool.and_eq_true, Bool.not_eq_true', List.all_eq_true] at h
    obtain ⟨⟨⟨h1, h2⟩, hbody⟩, hlk⟩ := h
    have hne : (c1 :: crest) ≠ [] := by simp
    have hdec := List.dropLast_concat_getLast hne
    have hgl : (c1 :: crest).getLastD "" = (c1 :: crest).getLast hne := by
      rw [List.getLastD_eq_getLast?, List.getLast?_eq_getLast _ hne]
      rfl
    have hlk2 : re_comment_end ((c1 :: crest).getLast hne) = true := by
      rw [← hgl]
      exact hlk
    refine Or.inr (Or.inr ⟨h1, h2, Or.inl ⟨(c1 :: crest).dropLast,
      (c1 :: crest).getLast hne, tail, ?_, ?_, hlk2, ?_, rfl⟩⟩)
    · conv_lhs => rw [← hdec]
      simp
    · intro b hb
      exact hbody b hb
    · rw [hdec]

/-- The serializer's line sequence for a normal-shaped table parses as that
very run of records, ending exactly at end of file. -/
theorem records_of_shape : ∀ (es : List LocalizedString),
    (∀ e ∈ es, entryShapeB e = true) →
    (∀ e ∈ es.drop 1, e.comments.headD "" ≠ "\n") →
    Records
      (readline (es.flatMap (fun e => e.comments ++ [e.translation, "\n"]))).1
      (readline (es.flatMap (fun e => e.comments ++ [e.translation, "\n"]))).2
      es "" [] := by
  intro es
  induction es with
  | nil =>
    intro _ _
    exact Records.nil "" []
  | cons e rest ih =>
    intro hshape hchain
    obtain ⟨hcs, hpl, hpt, hmat, hself⟩ :=
      entryShape_parts (hshape e (List.mem_cons_self e rest))
    obtain ⟨l0, cs0, hc⟩ : ∃ l0 cs0, e.comments = l0 :: cs0 := by
      cases hcc : e.comments with
      | nil => rw [hcc] at hcs; cases hcs
      | cons a b => exact ⟨a, b, rfl⟩
    have hlist : (e :: rest).flatMap (fun e => e.comments ++ [e.translation, "\n"])
        = l0 :: (cs0 ++ e.translation :: "\n" ::
            rest.flatMap (fun e => e.comments ++ [e.translation, "\n"])) := by
      rw [List.flatMap_cons, hc]
      simp
    rw [hlist]
    show Records l0 (cs0 ++ e.translation :: "\n" ::
      rest.flatMap (fun e => e.comments ++ [e.translation, "\n"])) (e :: rest) "" []
    have hblank : BlankSkipRel
        ("\n" :: rest.flatMap (fun e => e.comments ++ [e.translation, "\n"]))
        (readline (rest.flatMap (fun e => e.comments ++ [e.translation, "\n"]))).1
        (readline (rest.flatMap (fun e => e.comments ++ [e.translation, "\n"]))).2 := by
      cases rest with
      | nil => exact ⟨["\n"], by simp, Or.inr ⟨rfl, rfl, rfl⟩⟩
      | cons e2 rest2 =>
        obtain ⟨hcs2, _, _, _, _⟩ :=
          entryShape_parts (hshape e2 (List.mem_cons_of_mem e (List.mem_cons_self e2 rest2)))
        obtain ⟨g, gs, hg⟩ : ∃ g gs, e2.comments = g :: gs := by
          cases hcc : e2.comments with
          | nil => rw [hcc] at hcs2; cases hcs2
          | cons a b => exact ⟨a, b, rfl⟩
        have hflat2 : (e2 :: rest2).flatMap (fun e => e.comments ++ [e.translation, "\n"])
            = g :: (gs ++ e2.translation :: "\n" ::
                rest2.flatMap (fun e => e.comments ++ [e.translation, "\n"])) := by
          rw [List.flatMap_cons, hg]
          simp
        rw [hflat2]
        refine ⟨["\n"], by simp, Or.inl ⟨rfl, ?_⟩⟩
        have hgn := hchain e2 (by simp)
        rw [hg] at hgn
        simpa using hgn
    have htne : e.translation ≠ "" := properLine_ne hpt
    have hl0ne : l0 ≠ "" :=
      properLine_ne (hpl l0 (by rw [hc]; exact List.mem_cons_self _ _))
    have hcap : CaptureRel l0
        (cs0 ++ (e.translation :: "\n" ::
          rest.flatMap (fun e => e.comments ++ [e.translation, "\n"])))
        (l0 :: cs0)
        (e.translation :: "\n" ::
          rest.flatMap (fun e => e.comments ++ [e.translation, "\n"])) :=
      commentShape_capture (hc ▸ hcs) _
    have hgood : GoodRecord l0
        (cs0 ++ e.translation :: "\n" ::
          rest.flatMap (fun e => e.comments ++ [e.translation, "\n"])) e
        (readline (rest.flatMap (fun e => e.comments ++ [e.translation, "\n"]))).1
        (readline (rest.flatMap (fun e => e.comments ++ [e.translation, "\n"]))).2 := by
      refine ⟨hl0ne, l0 :: cs0,
        e.translation :: "\n" :: rest.flatMap (fun e => e.comments ++ [e.translation, "\n"]),
        e.translation,
        "\n" :: rest.flatMap (fun e => e.comments ++ [e.translation, "\n"]),
        hcap, rfl, htne, hmat, hblank, ?_⟩
      rw [← hc]
      exact hself
    exact Records.cons _ _ _ _ _ _ _ _ hgood
      (ih (fun x hx => hshape x (List.mem_cons_of_mem e hx))
        (fun x hx => hchain x (List.mem_of_mem_drop hx)))

theorem readline_tail_NE {L : List String} (h : NEchunks L) : NEchunks (readline L).2 := by
  cases L with
  | nil =>
    intro l hl
    cases hl
  | cons a t =>
    intro l hl
    exact h l (List.mem_cons_of_mem a hl)

theorem readline_tail_len (L : List String) : (readline L).2.length < L.length + 1 := by
  cases L with
  | nil => simp [readline]
  | cons a t =>
    simp only [readline, List.length_cons]
    omega

/-- Claim C6 is false as stated: this accepted table text serializes back
with one extra blank line appended, so the round trip is not
byte-identical. -/
theorem claim_C6_counterexample :
    (read_from_string "/* c */\n\"HELLO\" = \"Bonjour\";\n").map
      (fun r => match r with | .ok g => save_content g | .error _ => "")
      = some "/* c */\n\"HELLO\" = \"Bonjour\";\n\n" ∧
    ("/* c */\n\"HELLO\" = \"Bonjour\";\n\n" : String)
      ≠ "/* c */\n\"HELLO\" = \"Bonjour\";\n" := by decide

/-- Claim C6 amended: round-tripping is byte-identical exactly on texts in
the serializer's normal form.  Parsing the serialization of any table in
normal shape (full lines, records grouped as the parser groups them, one
blank line after each record) returns that very table, so serializer
output, re-parsed and re-serialized, is byte-identical; a general accepted
text may instead gain or lose blank lines. -/
theorem claim_C6_amended (f : LocalizedFile)
    (h1 : ∀ e ∈ f.strings, entryShapeB e = true)
    (h2 : ∀ e ∈ f.strings.drop 1, e.comments.headD "" ≠ "\n")
    (h3 : f = fileOf f.strings) :
    read_from_string (save_content f) = some (.ok f) := by
  have hprop : ∀ e ∈ f.strings,
      (∀ c ∈ e.comments, properLineB c = true) ∧ properLineB e.translation = true := by
    intro e he
    obtain ⟨_, hpl, hpt, _, _⟩ := entryShape_parts (h1 e he)
    exact ⟨hpl, hpt⟩
  have hlines := save_content_lines f hprop
  have hrec := records_of_shape f.strings h1 h2
  have hNEflat : NEchunks
      (f.strings.flatMap (fun e => e.comments ++ [e.translation, "\n"])) := by
    intro l hl
    rcases List.mem_flatMap.1 hl with ⟨e, he, hle⟩
    rcases List.mem_append.1 hle with hcm | ht
    · exact properLine_ne ((hprop e he).1 l hcm)
    · rcases List.mem_cons.1 ht with rfl | ht
      · exact properLine_ne (hprop e he).2
      · rcases List.mem_cons.1 ht with rfl | ht
        · decide
        · cases ht
  have hread : read_from_string (save_content f)
      = parseLoop ((splitLines (save_content f)).length + 1)
        (readline (splitLines (save_content f))).1
        (readline (splitLines (save_content f))).2 false LocalizedFile.empty := rfl
  rw [hread, hlines]
  obtain ⟨_, hrun⟩ := run_records hrec (readline_tail_NE hNEflat)
  rw [hrun false LocalizedFile.empty _ (readline_tail_len _)]
  rw [parseLoop_eof _ _ _ _ (by omega)]
  rw [show pushAll LocalizedFile.empty f.strings = fileOf f.strings from rfl, ← h3]

theorem claim_C6_witness :
    read_from_string (save_content (fileOf [eHelloBonjour]))
      = some (.ok (fileOf [eHelloBonjour])) :=
  claim_C6_amended (fileOf [eHelloBonjour]) (by decide) (by decide) (by decide)
